import Mathlib

/-!
# Verification of the Javadoc HTML-to-LaTeX post-processor

Shallow embedding of `scripts/convert_latex.py`: the ordered
pattern-to-template symbol table (`html2latex`), the per-region converters
(`convert_simple`, `convert_simple_aligned`), the literal-block extraction
pass, the MathJax header injection, and the per-file pipeline
(`process_javadoc`, minus file I/O).  Regular-expression substitutions are
modelled by dedicated scanners reproducing the leftmost, non-overlapping
semantics of `re.sub`, with greedy/reluctant quantifier behaviour spelled
out per pattern.
-/
set_option maxRecDepth 100000

namespace ConvertLatex

/-- Whitespace characters matched by the `\s` class in the source's
patterns, restricted to the ASCII range occurring in the documents. -/
def isWs (c : Char) : Bool :=
  c == ' ' || c == '\t' || c == '\n' || c == '\r' || c == '\x0b' || c == '\x0c'

/-- Fuelled worker for `replaceAll`; the fuel (instantiated with the text
length, which dominates the recursion depth) only makes the recursion
structural so that the kernel can evaluate it. -/
def replaceAllGo (p r : List Char) : Nat → List Char → List Char
  | _, [] => []
  | 0, s => s
  | fuel + 1, c :: t =>
    if p ≠ [] ∧ p <+: (c :: t) then
      r ++ replaceAllGo p r fuel (t.drop (p.length - 1))
    else
      c :: replaceAllGo p r fuel t

/-- One `re.sub` pass for a pattern that is a plain literal: leftmost
match, non-overlapping, scanning resumes after the emitted replacement
(which is therefore never rescanned within the same pass). -/
def replaceAll (p r : List Char) (s : List Char) : List Char :=
  replaceAllGo p r s.length s

/-- Reluctant (`.*?`, DOTALL) capture: the shortest prefix `g` of the text
such that the tail matcher accepts the remainder; returns `g` and the
tail's result.  On tail failure the group is extended, which models the
backtracking of everything that follows the reluctant group. -/
def lazyCap {α : Type} (tail : List Char → Option α) :
    List Char → Option (List Char × α)
  | [] => (tail []).map (fun rest => ([], rest))
  | c :: t =>
    match tail (c :: t) with
    | some rest => some ([], rest)
    | none => (lazyCap tail t).map (fun g => (c :: g.1, g.2))

/-- Reluctant (`.*?` without DOTALL) capture: as `lazyCap` but the group
cannot extend across a newline. -/
def lazyCapNoNl {α : Type} (tail : List Char → Option α) :
    List Char → Option (List Char × α)
  | [] => (tail []).map (fun rest => ([], rest))
  | c :: t =>
    match tail (c :: t) with
    | some rest => some ([], rest)
    | none =>
      if c = '\n' then none
      else (lazyCapNoNl tail t).map (fun g => (c :: g.1, g.2))

/-- Greedy `(.*)?\)` (no DOTALL): the longest newline-free prefix followed
by a literal `)`; splits at the last `)` before the first newline. -/
def greedyParenCap : List Char → Option (List Char × List Char)
  | [] => none
  | c :: t =>
    if c = '\n' then none
    else
      match greedyParenCap t with
      | some g => some (c :: g.1, g.2)
      | none => if c = ')' then some ([], t) else none

/-- Fuelled worker for `subDriver`; the fuel (instantiated with the text
length) makes the recursion structural.  A match must consume at least
one character to be taken, which every pattern of the source guarantees. -/
def subDriverGo (matchAt : List Char → Option (List Char × List Char)) :
    Nat → List Char → List Char
  | _, [] => []
  | 0, s => s
  | fuel + 1, c :: t =>
    match matchAt (c :: t) with
    | some (r, rest) =>
      if rest.length < t.length + 1 then r ++ subDriverGo matchAt fuel rest
      else c :: subDriverGo matchAt fuel t
    | none => c :: subDriverGo matchAt fuel t

/-- Generic `re.sub` driver: scan left to right; at each position try the
position matcher, on success emit the replacement and continue after the
consumed region. -/
def subDriver (matchAt : List Char → Option (List Char × List Char))
    (s : List Char) : List Char :=
  subDriverGo matchAt s.length s

/-- Characters excluded from the operands of the simple-fraction pattern
(`[^()<>]`). -/
def isFracStop (c : Char) : Bool :=
  c == '(' || c == ')' || c == '<' || c == '>'

/-- `[ ]*([^()<>]+)[ ]*\)` at the head of the text: the greedy character
class runs to the next `(`, `)`, `<` or `>`, which must be a `)`.  The
leading space run is consumed outside the group; if the run is all
spaces, backtracking leaves exactly one space in the group. -/
def fracOperand (s : List Char) : Option (List Char × List Char) :=
  let run := s.takeWhile (fun c => !isFracStop c)
  if run.isEmpty then none
  else
    match s.drop run.length with
    | ')' :: r2 =>
      let k := (run.takeWhile (fun c => c == ' ')).length
      some (if k = run.length then [' '] else run.drop k, r2)
    | _ => none

/-- Replacement template `\cfrac{\g<1>}{\g<2>}`. -/
def cfracRepl (g1 g2 : List Char) : List Char :=
  "\\cfrac\x7b".data ++ g1 ++ "\x7d\x7b".data ++ g2 ++ "\x7d".data

/-- The part of the simple-fraction pattern following the opening `\(`:
`[ ]*([^()<>]+)[ ]*\)[ ]*/[ ]*\([ ]*([^()<>]+)[ ]*\)`. -/
def fracAfterParen (t : List Char) : Option (List Char × List Char) :=
  match fracOperand t with
  | some (g1, r1) =>
    match r1.dropWhile (fun c => c == ' ') with
    | '/' :: r3 =>
      match r3.dropWhile (fun c => c == ' ') with
      | '(' :: r5 =>
        match fracOperand r5 with
        | some (g2, r6) => some (cfracRepl g1 g2, r6)
        | none => none
      | _ => none
    | _ => none
  | none => none

/-- The simple-fraction pattern
`\([ ]*([^()<>]+)[ ]*\)[ ]*/[ ]*\([ ]*([^()<>]+)[ ]*\)` matched at the
head of the text. -/
def fracMatchAt : List Char → Option (List Char × List Char)
  | '(' :: t => fracAfterParen t
  | _ => none

/-- Backtracking search for the two reluctant groups of the
summation/product idiom `<sub>(.*?)</sub><sup>(.*?)</sup>` (no DOTALL):
the first group is extended until `</sub><sup>` follows at a point after
which a `</sup>`-terminated second group exists. -/
def sumProdCap : List Char → Option (List Char × List Char × List Char)
  | [] => none
  | c :: t =>
    match
      (if "</sub><sup>".data <+: (c :: t) then
        (lazyCapNoNl
            (fun v => if "</sup>".data <+: v then some (v.drop 6) else none)
            ((c :: t).drop 11)).map (fun g2 => (([] : List Char), g2.1, g2.2))
      else none) with
    | some x => some x
    | none =>
      if c = '\n' then none
      else (sumProdCap t).map (fun x => (c :: x.1, x.2.1, x.2.2))

/-- `ENTITY<sub>(.*?)</sub><sup>(.*?)</sup>` matched at the head of the
text, rewritten to `CMD_{\g<1>}^{\g<2>}`. -/
def sumsMatchAt (entity cmd : List Char) (s : List Char) :
    Option (List Char × List Char) :=
  if (entity ++ "<sub>".data) <+: s then
    (sumProdCap (s.drop (entity ++ "<sub>".data).length)).map (fun x =>
      (cmd ++ "_\x7b".data ++ x.1 ++ "\x7d^\x7b".data ++ x.2.1 ++ "\x7d".data,
        x.2.2))
  else none

/-- `OPEN(.*?)CLOSE` matched at the head of the text, rewritten to
`\mathbf{\g<1>}` (the two boldface entries). -/
def boldMatchAt (openTag closeTag : List Char) (s : List Char) :
    Option (List Char × List Char) :=
  if openTag <+: s then
    (lazyCapNoNl
        (fun v => if closeTag <+: v then some (v.drop closeTag.length) else none)
        (s.drop openTag.length)).map
      (fun g => ("\\mathbf\x7b".data ++ g.1 ++ "\x7d".data, g.2))
  else none

/-- `&radic;\((.*)?\)` matched at the head of the text, rewritten to
`\sqrt{\g<1>}`. -/
def radicMatchAt (s : List Char) : Option (List Char × List Char) :=
  if "&radic;(".data <+: s then
    (greedyParenCap (s.drop 8)).map
      (fun g => ("\\sqrt\x7b".data ++ g.1 ++ "\x7d".data, g.2))
  else none

/-- One entry of the `html2latex` table: either a plain literal
pattern/replacement pair or one of the four structural patterns. -/
inductive Rule where
  | lit (p r : List Char)
  | frac
  | sums (entity cmd : List Char)
  | bold (openTag closeTag : List Char)
  | radic
deriving DecidableEq

/-- One iteration of the substitution loop of `convert_simple` /
`convert_simple_aligned`: `content = re.sub(pattern, replacement, content)`. -/
def applyRule (s : List Char) : Rule → List Char
  | .lit p r => replaceAll p r s
  | .frac => subDriver fracMatchAt s
  | .sums e c => subDriver (sumsMatchAt e c) s
  | .bold o c => subDriver (boldMatchAt o c) s
  | .radic => subDriver radicMatchAt s

/-- The lowercase and uppercase Greek-letter entries of `html2latex`, in
table order. -/
def greekRules : List (List Char × List Char) :=
  [("&alpha;", "\\alpha "), ("&beta;", "\\beta "), ("&gamma;", "\\gamma "),
   ("&delta;", "\\delta "), ("&epsilon;", "\\epsilon "), ("&zeta;", "\\zeta "),
   ("&eta;", "\\eta "), ("&theta;", "\\theta "), ("&iota;", "\\iota "),
   ("&kappa;", "\\kappa "), ("&lambda;", "\\lambda "), ("&mu;", "\\mu "),
   ("&nu;", "\\nu "), ("&xi;", "\\xi "), ("&omicron;", "\\omicron "),
   ("&pi;", "\\pi "), ("&rho;", "\\rho "), ("&sigma;", "\\sigma "),
   ("&tau;", "\\tau "), ("&upsilon;", "\\upsilon "), ("&phi;", "\\phi "),
   ("&chi;", "\\chi "), ("&psi;", "\\psi "), ("&omega;", "\\omega "),
   ("&Alpha;", "\\Alpha "), ("&Beta;", "\\Beta "), ("&Gamma;", "\\Gamma "),
   ("&Delta;", "\\Delta "), ("&Epsilon;", "\\Epsilon "), ("&Zeta;", "\\Zeta "),
   ("&Eta;", "\\Eta "), ("&Theta;", "\\Theta "), ("&Iota;", "\\Iota "),
   ("&Kappa;", "\\Kappa "), ("&Lambda;", "\\Lambda "), ("&Mu;", "\\Mu "),
   ("&Nu;", "\\Nu "), ("&Xi;", "\\Xi "), ("&Omicron;", "\\Omicron "),
   ("&Pi;", "\\Pi "), ("&Rho;", "\\Rho "), ("&Sigma;", "\\Sigma "),
   ("&Tau;", "\\Tau "), ("&Upsilon;", "\\Upsilon "), ("&Phi;", "\\Phi "),
   ("&Chi;", "\\Chi "), ("&Psi;", "\\Psi "), ("&Omega;", "\\Omega ")
  ].map (fun pr => (pr.1.data, pr.2.data))

/-- The entries of `html2latex` preceding the Greek block: braces, the
simple-fraction pattern, parentheses and brackets, and the
summation/product idioms. -/
def tablePre : List Rule :=
  [Rule.lit "\x7b".data "\\left \x7b".data,
   Rule.lit "\x7d".data "\\right \x7d".data,
   Rule.frac,
   Rule.lit "(".data "\\left (".data,
   Rule.lit ")".data "\\right )".data,
   Rule.lit "[".data "\\left [".data,
   Rule.lit "]".data "\\right ]".data,
   Rule.sums "&Sigma;".data "\\sum".data,
   Rule.sums "&Pi;".data "\\prod".data]

/-- The entries of `html2latex` following the Greek block: sub/superscript
tags, boldface, blackboard-bold sets, operators, and remaining symbols. -/
def tablePost : List Rule :=
  [Rule.lit "<sub>".data "_\x7b".data,
      Rule.lit "</sub>".data "\x7d".data,
      Rule.lit "<sup>".data "^\x7b".data,
      Rule.lit "</sup>".data "\x7d".data,
      Rule.bold "<b>".data "</b>".data,
      Rule.bold "<strong>".data "</strong>".data,
      Rule.lit "ℝ".data "\\mathbb\x7bR\x7d".data,
      Rule.lit "ℚ".data "\\mathbb\x7bQ\x7d".data,
      Rule.lit "ℂ".data "\\mathbb\x7bC\x7d".data,
      Rule.lit "ℤ".data "\\mathbb\x7bZ\x7d".data,
      Rule.lit "ℕ".data "\\mathbb\x7bN\x7d".data,
      Rule.lit "&lt;".data "<".data,
      Rule.lit "&gt;".data ">".data,
      Rule.lit "&le;".data "\\leq ".data,
      Rule.lit "&ge;".data "\\geq ".data,
      Rule.lit "&ne;".data "\\neq ".data,
      Rule.lit "&plusmn;".data "\\pm ".data,
      Rule.lit "&isin;".data "\\in ".data,
      Rule.lit "&notin;".data "\\notin ".data,
      Rule.radic,
      Rule.lit "&asymp;".data "\\approx ".data,
      Rule.lit "&oplus;".data "\\oplus ".data,
      Rule.lit "&Implies;".data "\\implies".data,
      Rule.lit "&times;".data "\\times".data,
      Rule.lit "&middot;".data "\\cdot".data,
      Rule.lit "&infin;".data "\\inf ".data,
      Rule.lit "...".data "\\cdots ".data,
      Rule.lit "&ell;".data "\\ell ".data]

/-- The ordered `html2latex` table (insertion order of the source dict). -/
def html2latex : List Rule :=
  tablePre ++ greekRules.map (fun pr => Rule.lit pr.1 pr.2) ++ tablePost

/-- The full substitution loop of `convert_simple` and
`convert_simple_aligned`: every `html2latex` entry applied globally, in
table order, each pass feeding the next. -/
def convertFragmentL (s : List Char) : List Char :=
  html2latex.foldl applyRule s

/-- String-level wrapper for `convertFragmentL` (the Symbol Table's
`convert_fragment` contract). -/
def convertFragment (s : String) : String :=
  ⟨convertFragmentL s.data⟩

/-- Python's `str.strip()`: remove leading and trailing whitespace. -/
def trim (s : List Char) : List Char :=
  ((s.dropWhile isWs).reverse.dropWhile isWs).reverse

/-- Shared preprocessing of `convert_simple`: capture with the `<pre>`
tags removed and surrounding whitespace stripped, then run through the
Symbol Table. -/
def convertSimpleBody (g : List Char) : List Char :=
  convertFragmentL
    (trim (replaceAll "</pre>".data [] (replaceAll "<pre>".data [] g)))

/-- `convert_simple`: the processed capture wrapped in the requested math
delimiters with single spaces, `f"{opened} {content} {closed}"`. -/
def convertSimpleRepl (opened closed g : List Char) : List Char :=
  opened ++ ' ' :: (convertSimpleBody g ++ ' ' :: closed)

/-- `convert_simple_aligned`: strip `<pre>` tags, mark every occurrence
of the alignment token, strip whitespace, replace each newline with an
alignment row break, run the Symbol Table, and wrap in an `align*`
display block. -/
def convertAlignedRepl (tok rep g : List Char) : List Char :=
  "\\[ \\begin\x7balign*\x7d ".data
    ++ convertFragmentL
        (replaceAll "\n".data " \\\\ \n".data
          (trim (replaceAll tok ('&' :: rep)
            (replaceAll "</pre>".data [] (replaceAll "<pre>".data [] g)))))
    ++ " \\end\x7balign*\x7d \\]".data

/-- `\s*</span>` closing a tagged span: greedy whitespace, then the
literal closing tag. -/
def spanTail (v : List Char) : Option (List Char) :=
  if "</span>".data <+: v.dropWhile isWs then some ((v.dropWhile isWs).drop 7)
  else none

/-- `<span class="CLS">\s*(.*?)\s*</span>` (DOTALL) matched at the head of
the text; the reluctant group hands trailing whitespace to the tail, and
the replacement is built by the converter from the capture. -/
def spanMatchAt (cls : List Char) (conv : List Char → List Char)
    (s : List Char) : Option (List Char × List Char) :=
  let trig := "<span class=\"".data ++ cls ++ "\">".data
  if trig <+: s then
    let u := s.drop trig.length
    (lazyCap spanTail (u.drop (u.takeWhile isWs).length)).map
      (fun g => (conv g.1, g.2))
  else none

/-- `\s* -->` at the head of the text: the greedy whitespace run must
leave one space for the head of the literal ` -->`. -/
def arrowTailAt (u : List Char) : Option (List Char) :=
  let m := (u.takeWhile isWs).length
  if 1 ≤ m ∧ " -->".data <+: u.drop (m - 1) then some (u.drop (m + 3))
  else none

/-- `\s*(\})?\s* -->` at the head of the text.  When the optional closing
brace is taken but the remainder fails, no other alternative can succeed
(the character after the whitespace run is `}`, on which ` -->` cannot
start), so no further backtracking is modelled. -/
def commentTail (u : List Char) : Option (List Char) :=
  match u.drop (u.takeWhile isWs).length with
  | '}' :: v => arrowTailAt v
  | _ => arrowTailAt u

/-- Backtracking of the greedy `\s*` runs preceding the payload group:
positions inside the whitespace run are retried right to left, each with
an empty reluctant group. -/
def descWsTry : Nat → List Char → Option (List Char × List Char)
  | 0, _ => none
  | j + 1, u =>
    match commentTail (u.drop j) with
    | some rest => some ([], rest)
    | none => descWsTry j u

/-- `\s*(.*?)\s*(\})?\s* -->`: the payload group of the directive comment
(reluctant, DOTALL), returning the captured payload and the rest after
`-->`. -/
def payloadCap (u : List Char) : Option (List Char × List Char) :=
  let m := (u.takeWhile isWs).length
  match lazyCap commentTail (u.drop m) with
  | some g => some g
  | none => descWsTry m u

/-- `\s*(\{@literal)?\s*(.*?)\s*(\})?\s* -->`: the body of the directive
comment after `<!-- LATEX:`.  The optional wrapper is tried greedily and
given up if nothing completes after it. -/
def literalBody (u : List Char) : Option (List Char × List Char) :=
  let u1 := u.drop (u.takeWhile isWs).length
  if "\x7b@literal".data <+: u1 then
    match payloadCap (u1.drop 9) with
    | some g => some g
    | none => payloadCap u
  else payloadCap u

/-- The custom-replacement pattern
`(<span class="latex-replaceable">.*?</span>)\s*<!-- LATEX:\s*(\{@literal)?\s*(.*?)\s*(\})?\s* -->`
matched at the head of the text; `replace_match` emits group 3 (the
payload) alone, so both the span and its original content are dropped. -/
def literalMatchAt (s : List Char) : Option (List Char × List Char) :=
  if "<span class=\"latex-replaceable\">".data <+: s then
    (lazyCap
        (fun v =>
          if "</span>".data <+: v then
            let w := (v.drop 7).dropWhile isWs
            if "<!-- LATEX:".data <+: w then literalBody (w.drop 11)
            else none
          else none)
        (s.drop 32)).map
      (fun g => (g.2.1, g.2.2))
  else none

/-- The MathJax script reference inserted by `inject_mathjax`. -/
def mathjaxScript : List Char :=
  "<script id=\"MathJax-script\" async src=\"https://cdn.jsdelivr.net/npm/mathjax@3/es5/tex-mml-chtml.js\"></script>".data

/-- Case-insensitive literal match (the `re.IGNORECASE` flag). -/
def ciPfx : List Char → List Char → Bool
  | [], _ => true
  | _ :: _, [] => false
  | c :: p, d :: s => (c.toLower == d.toLower) && ciPfx p s

/-- Index of the first `>` in the text, failing at a newline (the lazy
`.*?>` fragment of the head pattern, no DOTALL). -/
def findGt : List Char → Option Nat
  | [] => none
  | c :: t =>
    if c = '>' then some 0
    else if c = '\n' then none
    else (findGt t).map (· + 1)

/-- Length of a match of `<head.*?>` (case-insensitive) at the head of
the text. -/
def headMatchLen (s : List Char) : Option Nat :=
  if ciPfx "<head".data s then (findGt (s.drop 5)).map (fun k => 5 + k + 1)
  else none

/-- Leftmost match of `<head.*?>`: splits the document right after the
matched opening tag. -/
def findHeadEnd : List Char → Option (List Char × List Char)
  | [] => none
  | c :: t =>
    match headMatchLen (c :: t) with
    | some n => some ((c :: t).take n, (c :: t).drop n)
    | none => (findHeadEnd t).map (fun pr => (c :: pr.1, pr.2))

/-- `inject_mathjax`: insert the script reference directly after the
head-element opening tag; return the document unchanged when no head
element is found. -/
def injectMathjax (s : List Char) : List Char :=
  match findHeadEnd s with
  | some (pre, post) => pre ++ "\n    ".data ++ mathjaxScript ++ post
  | none => s

/-- The `latex-inline` region pass. -/
def inlinePass (s : List Char) : List Char :=
  subDriver
    (spanMatchAt "latex-inline".data (convertSimpleRepl "\\(".data "\\)".data)) s

/-- The `latex-display` region pass. -/
def displayPass (s : List Char) : List Char :=
  subDriver
    (spanMatchAt "latex-display".data (convertSimpleRepl "\\[".data "\\]".data)) s

/-- The `latex-eq-aligned` region pass. -/
def eqAlignedPass (s : List Char) : List Char :=
  subDriver
    (spanMatchAt "latex-eq-aligned".data (convertAlignedRepl "=".data "=".data)) s

/-- The `latex-impl-aligned` region pass. -/
def implAlignedPass (s : List Char) : List Char :=
  subDriver
    (spanMatchAt "latex-impl-aligned".data
      (convertAlignedRepl "&Implies;".data "\\implies".data)) s

/-- The literal (custom replacement) pass. -/
def literalPass (s : List Char) : List Char :=
  subDriver literalMatchAt s

/-- `process_javadoc` minus the file I/O: header injection, then the four
Symbol-Table-driven region passes in source order, then the literal
pass. -/
def processContentL (s : List Char) : List Char :=
  literalPass (implAlignedPass (eqAlignedPass (displayPass (inlinePass
    (injectMathjax s)))))

/-- String-level wrapper for the per-file pipeline. -/
def processContent (s : String) : String :=
  ⟨processContentL s.data⟩

/-- Sufficient condition for one `html2latex` entry to leave a text
unchanged. -/
def Untriggered (s : List Char) : Rule → Prop
  | .lit p _ => ¬ p <:+: s
  | .frac => '(' ∉ s
  | .sums e _ => ¬ (e ++ "<sub>".data) <:+: s
  | .bold o _ => ¬ o <:+: s
  | .radic => ¬ "&radic;(".data <:+: s

/-- Decidable check that a rule's firing always requires a character from
the set `ts` (with the ellipsis entry singled out). -/
def ruleTrigOk (ts : List Char) : Rule → Bool
  | .lit p _ => p.any (fun c => ts.contains c) || p == "...".data
  | .frac => ts.contains '('
  | .sums e _ => (e ++ "<sub>".data).any (fun c => ts.contains c)
  | .bold o _ => o.any (fun c => ts.contains c)
  | .radic => "&radic;(".data.any (fun c => ts.contains c)

/-- Characters whose absence (together with absence of the ellipsis
token) makes the whole Symbol Table a no-op. -/
def trigAll : List Char :=
  ['&', '\x7b', '\x7d', '(', ')', '<', '[', ']', 'ℝ', 'ℚ', 'ℂ', 'ℤ', 'ℕ']

/-! ## Order independence of the Greek block -/
/-- A block of literal pattern/replacement pairs applied in order, each
globally (the shape of the Greek segment of the substitution loop). -/
def applyLits (rules : List (List Char × List Char)) (s : List Char) : List Char :=
  rules.foldl (fun t pr => replaceAll pr.1 pr.2 t) s

/-- Shape shared by every Greek entry: the pattern is `&name;` with a
nonempty name free of `&` and `\`, and the replacement is a
backslash-initial command free of `&`. -/
def gShapeB (pr : List Char × List Char) : Bool :=
  pr.1.head? == some '&' && !pr.1.tail.isEmpty &&
    pr.1.tail.all (fun c => !(c == '&') && !(c == '\\')) &&
    pr.2.head? == some '\\' && pr.2.all (fun c => !(c == '&'))

/-- One token of the restricted input language for which the Symbol Table
acts as the bare Greek mapping: a single character or one whole Greek
entity. -/
inductive Tok where
  | chr (c : Char)
  | ent (i : Fin greekRules.length)

/-- The text of a token (entity tokens contribute their pattern). -/
def tokIn : Tok → List Char
  | .chr c => [c]
  | .ent i => (greekRules.get i).1

/-- The converted text of a token (entity tokens contribute their
replacement command). -/
def tokOut : Tok → List Char
  | .chr c => [c]
  | .ent i => (greekRules.get i).2

/-- The input text denoted by a token string. -/
def flattenIn (toks : List Tok) : List Char := (toks.map tokIn).flatten

/-- The fully converted text denoted by a token string. -/
def flattenOut (toks : List Tok) : List Char := (toks.map tokOut).flatten

/-- Character tokens that no `html2latex` entry can touch. -/
def TokOk : Tok → Prop
  | .chr c => c ∉ trigAll ∧ c ≠ '.'
  | .ent _ => True

/-- Trigger set for the table segment preceding the Greek block. -/
def tsPre : List Char := ['\x7b', '\x7d', '(', ')', '<', '[', ']']

/-- Trigger set for the table segment following the Greek block. -/
def tsPost : List Char := ['&', '<', 'ℝ', 'ℚ', 'ℂ', 'ℤ', 'ℕ']

/-- The input fragment `(A)/(B)`. -/
def fracIn (A B : List Char) : List Char :=
  '(' :: (A ++ ')' :: '/' :: '(' :: (B ++ [')']))

/-- Characters the simple-fraction operand class excludes, together with
the characters recognized by any earlier or later table entry. -/
def gPunct : List Char :=
  ['(', ')', '<', '>', '[', ']', '\x7b', '\x7d', '&', 'ℝ', 'ℚ', 'ℂ', 'ℤ', 'ℕ']

/-- Conditions on a division operand under which the fraction rewrite
captures it verbatim and no other table entry touches it. -/
structure OperandOk (A : List Char) : Prop where
  ne : A ≠ []
  head_sp : A.head? ≠ some ' '
  chars : ∀ c ∈ A, c ∉ gPunct
  dots : ¬ "...".data <:+: A

/-- Inner content of a sub/superscript group: free of every character
another table entry could fire on, and free of the ellipsis token. -/
def SubOk (X : List Char) : Prop :=
  (∀ c ∈ X, c ∉ trigAll) ∧ ¬ "...".data <:+: X

/-- Entity entries whose firing is ruled out by the `&=`-marker shape:
pattern head `&`, nonempty name, name not beginning with `=`. -/
def ampLitOk : Rule → Bool
  | .lit p _ =>
    p.head? == some '&' && !p.tail.isEmpty && !(p.tail.head? == some '=')
  | _ => false

/-- Trigger set for aligned content (everything except `&`). -/
def tsAlign : List Char :=
  ['\x7b', '\x7d', '(', ')', '<', '[', ']', '.', 'ℝ', 'ℚ', 'ℂ', 'ℤ', 'ℕ']

/-- Characters that must not occur inside aligned-region line fragments:
the alignment marker, the alignment token, line structure, and every
Symbol-Table trigger. -/
def alignBad : List Char := '&' :: '=' :: '\n' :: '.' :: trigAll

/-- Conditions for an eq-aligned region of two single-`=` lines
`a1=b1` and `a2=b2`. -/
structure AlignedOk (a1 b1 a2 b2 : List Char) : Prop where
  c1 : ∀ c ∈ a1, c ∉ alignBad
  c2 : ∀ c ∈ b1, c ∉ alignBad
  c3 : ∀ c ∈ a2, c ∉ alignBad
  c4 : ∀ c ∈ b2, c ∉ alignBad
  a1ne : a1 ≠ []
  a1hd : ∀ c, a1.head? = some c → isWs c = false
  b2ne : b2 ≠ []
  b2last : ∀ c, b2.getLast? = some c → isWs c = false

/-- Conditions under which the payload of a directive comment is captured
exactly: non-empty, no surrounding whitespace, and free of the closing
brace and of the dash that could complete the comment terminator early. -/
structure PayloadOk (P : List Char) : Prop where
  ne : P ≠ []
  headc : ∀ c, P.head? = some c → isWs c = false
  lastc : ∀ c, P.getLast? = some c → isWs c = false
  nobrace : ('\x7d' : Char) ∉ P
  nodash : '-' ∉ P

/-- The tail matcher of the literal pattern's reluctant span group: the
closing span tag, optional whitespace, then the directive comment. -/
def spanCloseTail (v : List Char) : Option (List Char × List Char) :=
  if "</span>".data <+: v then
    let w := (v.drop 7).dropWhile isWs
    if "<!-- LATEX:".data <+: w then literalBody (w.drop 11)
    else none
  else none

/-! ## Fuel elimination and unfolding equations -/
theorem replaceAllGo_irrel (p r : List Char) :
    ∀ (m n : Nat) (s : List Char), s.length ≤ m → s.length ≤ n →
      replaceAllGo p r m s = replaceAllGo p r n s := by
  intro m
  induction m with
  | zero =>
    intro n s hm _
    have : s = [] := List.length_eq_zero.mp (Nat.le_zero.mp hm)
    subst this
    cases n <;> rfl
  | succ m ih =>
    intro n s hm hn
    cases s with
    | nil => cases n <;> rfl
    | cons c t =>
      cases n with
      | zero => simp at hn
      | succ n =>
        simp only [replaceAllGo]
        by_cases h : p ≠ [] ∧ p <+: (c :: t)
        · simp only [if_pos h]
          have hd : (t.drop (p.length - 1)).length ≤ t.length := by
            simp only [List.length_drop]; omega
          have hm' : t.length ≤ m := by simpa using hm
          have hn' : t.length ≤ n := by simpa using hn
          rw [ih n (t.drop (p.length - 1)) (le_trans hd hm') (le_trans hd hn')]
        · simp only [if_neg h]
          have hm' : t.length ≤ m := by simpa using hm
          have hn' : t.length ≤ n := by simpa using hn
          rw [ih n t hm' hn']

theorem replaceAll_nil (p r : List Char) : replaceAll p r [] = [] := rfl

theorem replaceAll_cons_pos {p : List Char} (r : List Char) {c : Char}
    {t : List Char} (hp : p ≠ []) (hpre : p <+: (c :: t)) :
    replaceAll p r (c :: t) = r ++ replaceAll p r (t.drop (p.length - 1)) := by
  show replaceAllGo p r (c :: t).length (c :: t) = _
  simp only [List.length_cons, replaceAllGo, if_pos (And.intro hp hpre)]
  rw [replaceAllGo_irrel p r t.length (t.drop (p.length - 1)).length
      (t.drop (p.length - 1)) (by simp) le_rfl]
  rfl

theorem replaceAll_cons_neg {p : List Char} (r : List Char) {c : Char}
    {t : List Char} (h : ¬(p ≠ [] ∧ p <+: (c :: t))) :
    replaceAll p r (c :: t) = c :: replaceAll p r t := by
  show replaceAllGo p r (c :: t).length (c :: t) = _
  simp only [List.length_cons, replaceAllGo, if_neg h]
  rfl

theorem subDriverGo_irrel (f : List Char → Option (List Char × List Char)) :
    ∀ (m n : Nat) (s : List Char), s.length ≤ m → s.length ≤ n →
      subDriverGo f m s = subDriverGo f n s := by
  intro m
  induction m with
  | zero =>
    intro n s hm _
    have : s = [] := List.length_eq_zero.mp (Nat.le_zero.mp hm)
    subst this
    cases n <;> rfl
  | succ m ih =>
    intro n s hm hn
    cases s with
    | nil => cases n <;> rfl
    | cons c t =>
      cases n with
      | zero => simp at hn
      | succ n =>
        have hm' : t.length ≤ m := by simpa using hm
        have hn' : t.length ≤ n := by simpa using hn
        simp only [subDriverGo]
        cases hf : f (c :: t) with
        | none => rw [ih n t hm' hn']
        | some pr =>
          by_cases hl : pr.2.length < t.length + 1
          · simp only [if_pos hl]
            rw [ih n pr.2 (by omega) (by omega)]
          · simp only [if_neg hl]
            rw [ih n t hm' hn']

theorem subDriver_nil (f : List Char → Option (List Char × List Char)) :
    subDriver f [] = [] := rfl

theorem subDriver_cons_some {f : List Char → Option (List Char × List Char)}
    {c : Char} {t rep rest : List Char} (hf : f (c :: t) = some (rep, rest))
    (hl : rest.length ≤ t.length) :
    subDriver f (c :: t) = rep ++ subDriver f rest := by
  show subDriverGo f (c :: t).length (c :: t) = _
  simp only [List.length_cons, subDriverGo, hf]
  rw [if_pos (by omega)]
  rw [subDriverGo_irrel f t.length rest.length rest hl le_rfl]
  rfl

theorem subDriver_cons_none {f : List Char → Option (List Char × List Char)}
    {c : Char} {t : List Char} (hf : f (c :: t) = none) :
    subDriver f (c :: t) = c :: subDriver f t := by
  show subDriverGo f (c :: t).length (c :: t) = _
  simp only [List.length_cons, subDriverGo, hf]
  rfl

/-! ## Identity of passes on trigger-free text -/
theorem replaceAll_of_not_ifx {p : List Char} (r : List Char) :
    ∀ {s : List Char}, ¬ p <:+: s → replaceAll p r s = s := by
  intro s
  induction s with
  | nil => intro _; rfl
  | cons c t ih =>
    intro h
    rw [replaceAll_cons_neg r, ih (fun hi => h (List.infix_cons hi))]
    intro hand
    exact h hand.2.isInfix

theorem replaceAll_of_not_mem {p : List Char} (r : List Char) {c : Char}
    (hc : c ∈ p) {s : List Char} (hs : c ∉ s) : replaceAll p r s = s :=
  replaceAll_of_not_ifx r (fun hi => hs (hi.subset hc))

theorem subDriver_of_none {f : List Char → Option (List Char × List Char)} :
    ∀ {s : List Char}, (∀ u, u <:+ s → f u = none) → subDriver f s = s := by
  intro s
  induction s with
  | nil => intro _; rfl
  | cons c t ih =>
    intro h
    rw [subDriver_cons_none (h (c :: t) (List.suffix_refl _)),
      ih (fun u hu => h u (hu.trans (List.suffix_cons c t)))]

theorem fracMatchAt_none {u : List Char} (h : '(' ∉ u) : fracMatchAt u = none := by
  cases u with
  | nil => rfl
  | cons c t =>
    have : c ≠ '(' := fun hc => h (hc ▸ List.mem_cons_self c t)
    unfold fracMatchAt
    split
    next heq =>
      injection heq with h1 _
      exact absurd h1 this
    next => rfl

theorem sumsMatchAt_none {e c : List Char} {u : List Char}
    (h : ¬ (e ++ "<sub>".data) <+: u) : sumsMatchAt e c u = none := by
  simp only [sumsMatchAt, if_neg h]

theorem boldMatchAt_none {o cl : List Char} {u : List Char}
    (h : ¬ o <+: u) : boldMatchAt o cl u = none := by
  simp only [boldMatchAt, if_neg h]

theorem radicMatchAt_none {u : List Char}
    (h : ¬ "&radic;(".data <+: u) : radicMatchAt u = none := by
  simp only [radicMatchAt, if_neg h]

theorem spanMatchAt_none {cls : List Char} {conv : List Char → List Char}
    {u : List Char} (h : ¬ ("<span class=\"".data ++ cls ++ "\">".data) <+: u) :
    spanMatchAt cls conv u = none := by
  simp only [spanMatchAt, if_neg h]

theorem literalMatchAt_none {u : List Char}
    (h : ¬ "<span class=\"latex-replaceable\">".data <+: u) :
    literalMatchAt u = none := by
  simp only [literalMatchAt, if_neg h]

/-- An infix of a suffix is an infix. -/
theorem ifx_of_pfx_of_sfx {l u s : List Char} (h1 : l <+: u) (h2 : u <:+ s) :
    l <:+: s := by
  obtain ⟨a, ha⟩ := h1
  obtain ⟨b, hb⟩ := h2
  exact ⟨b, a, by rw [← hb, ← ha, List.append_assoc]⟩

theorem applyRule_id {s : List Char} {ru : Rule} (h : Untriggered s ru) :
    applyRule s ru = s := by
  cases ru with
  | lit p r => exact replaceAll_of_not_ifx r h
  | frac =>
    refine subDriver_of_none (fun u hu => fracMatchAt_none (fun hc => ?_))
    exact h (hu.subset hc)
  | sums e c =>
    refine subDriver_of_none (fun u hu => sumsMatchAt_none (fun hp => ?_))
    exact h (ifx_of_pfx_of_sfx hp hu)
  | bold o cl =>
    refine subDriver_of_none (fun u hu => boldMatchAt_none (fun hp => ?_))
    exact h (ifx_of_pfx_of_sfx hp hu)
  | radic =>
    refine subDriver_of_none (fun u hu => radicMatchAt_none (fun hp => ?_))
    exact h (ifx_of_pfx_of_sfx hp hu)

theorem foldl_applyRule_id : ∀ {rules : List Rule} {s : List Char},
    (∀ ru ∈ rules, Untriggered s ru) → rules.foldl applyRule s = s := by
  intro rules
  induction rules with
  | nil => intro s _; rfl
  | cons ru rest ih =>
    intro s h
    simp only [List.foldl_cons, applyRule_id (h ru (List.mem_cons_self ru rest))]
    exact ih (fun r hr => h r (List.mem_cons_of_mem ru hr))

theorem untriggered_of_trigOk {ts : List Char} {ru : Rule} {s : List Char}
    (hok : ruleTrigOk ts ru = true) (hchars : ∀ c ∈ s, c ∉ ts)
    (hdots : ¬ "...".data <:+: s) : Untriggered s ru := by
  cases ru with
  | lit p r =>
    simp only [ruleTrigOk, Bool.or_eq_true, List.any_eq_true, beq_iff_eq] at hok
    rcases hok with ⟨c, hcp, hcts⟩ | hp
    · exact fun hi => hchars c (hi.subset hcp) (by simpa using hcts)
    · exact hp ▸ hdots
  | frac =>
    simp only [ruleTrigOk] at hok
    exact fun hin => hchars '(' hin (by simpa using hok)
  | sums e c =>
    simp only [ruleTrigOk, List.any_eq_true] at hok
    obtain ⟨c0, hc0, hcts⟩ := hok
    exact fun hi => hchars c0 (hi.subset hc0) (by simpa using hcts)
  | bold o cl =>
    simp only [ruleTrigOk, List.any_eq_true] at hok
    obtain ⟨c0, hc0, hcts⟩ := hok
    exact fun hi => hchars c0 (hi.subset hc0) (by simpa using hcts)
  | radic =>
    simp only [ruleTrigOk, List.any_eq_true] at hok
    obtain ⟨c0, hc0, hcts⟩ := hok
    exact fun hi => hchars c0 (hi.subset hc0) (by simpa using hcts)

theorem tableSegment_id (ts : List Char) {rules : List Rule} {s : List Char}
    (hok : rules.all (ruleTrigOk ts) = true) (hchars : ∀ c ∈ s, c ∉ ts)
    (hdots : ¬ "...".data <:+: s) : rules.foldl applyRule s = s := by
  refine foldl_applyRule_id (fun ru hru => ?_)
  have := (List.all_eq_true.mp hok) ru hru
  exact untriggered_of_trigOk this hchars hdots

theorem convertFragmentL_id {s : List Char} (hchars : ∀ c ∈ s, c ∉ trigAll)
    (hdots : ¬ "...".data <:+: s) : convertFragmentL s = s :=
  tableSegment_id trigAll (by decide) hchars hdots

/-! ## Decomposition lemmas for literal substitution -/
theorem pfx_append_cases {p x y : List Char} (h : p <+: x ++ y) :
    p <+: x ∨ ∃ p₂, p = x ++ p₂ ∧ p₂ <+: y := by
  induction x generalizing p with
  | nil => exact Or.inr ⟨p, by simpa using h⟩
  | cons c x' ih =>
    cases p with
    | nil => exact Or.inl (List.nil_prefix)
    | cons d p' =>
      rw [List.cons_append, List.cons_prefix_cons] at h
      rcases ih h.2 with h1 | ⟨p₂, hp₂, hy⟩
      · exact Or.inl (h.1 ▸ List.cons_prefix_cons.mpr ⟨rfl, h1⟩)
      · exact Or.inr ⟨p₂, by rw [h.1, hp₂, List.cons_append], hy⟩

theorem ifx_append_cases {p x y : List Char} (h : p <:+: x ++ y) :
    p <:+: x ∨ p <:+: y ∨
      ∃ p₁ p₂, p = p₁ ++ p₂ ∧ p₁ ≠ [] ∧ p₂ ≠ [] ∧ p₁ <:+ x ∧ p₂ <+: y := by
  induction x generalizing p with
  | nil => exact Or.inr (Or.inl (by simpa using h))
  | cons c x' ih =>
    rw [List.cons_append, List.infix_cons_iff] at h
    rcases h with h | h
    · cases p with
      | nil => exact Or.inl (List.nil_infix)
      | cons d p' =>
        rw [List.cons_prefix_cons] at h
        rcases pfx_append_cases h.2 with h1 | ⟨p₂, hp₂, hy⟩
        · exact Or.inl (h.1 ▸ (List.cons_prefix_cons.mpr ⟨rfl, h1⟩).isInfix)
        · rcases List.eq_nil_or_concat' p₂ with rfl | _
          · refine Or.inl ?_
            have : d :: p' = c :: x' := by rw [h.1, hp₂, List.append_nil]
            exact this ▸ List.infix_refl _
          · refine Or.inr (Or.inr ⟨c :: x', p₂, ?_, by simp, ?_, List.suffix_refl _, hy⟩)
            · rw [h.1, hp₂, List.cons_append]
            · rintro rfl; simp_all
    · rcases ih h with h1 | h1 | ⟨p₁, p₂, hp, hn1, hn2, hs, hpfx⟩
      · exact Or.inl (List.infix_cons h1)
      · exact Or.inr (Or.inl h1)
      · exact Or.inr (Or.inr ⟨p₁, p₂, hp, hn1, hn2, hs.trans (List.suffix_cons c x'), hpfx⟩)

theorem replaceAll_append_skip {p : List Char} (r : List Char) :
    ∀ {u v : List Char}, (∀ i, i < u.length → ¬ p <+: (u ++ v).drop i) →
      replaceAll p r (u ++ v) = u ++ replaceAll p r v := by
  intro u
  induction u with
  | nil => intro v _; rfl
  | cons c u' ih =>
    intro v h
    have h0 : ¬ p <+: (c :: (u' ++ v)) := by simpa using h 0 (by simp)
    rw [List.cons_append, replaceAll_cons_neg r (fun hand => h0 hand.2),
      ih (fun i hi => by simpa using h (i + 1) (by simpa using hi))]
    rfl

theorem replaceAll_append_match {p : List Char} (r : List Char) {v : List Char}
    (hp : p ≠ []) : replaceAll p r (p ++ v) = r ++ replaceAll p r v := by
  cases p with
  | nil => exact absurd rfl hp
  | cons a p' =>
    rw [List.cons_append, replaceAll_cons_pos r hp ⟨v, by simp⟩]
    congr 1
    simp [List.drop_left]

theorem replaceAll_decomp (p r s : List Char) :
    replaceAll p r s = s ∨
      ∃ u v, s = u ++ p ++ v ∧
        replaceAll p r s = u ++ r ++ replaceAll p r v := by
  induction s with
  | nil => exact Or.inl rfl
  | cons c t ih =>
    by_cases h : p ≠ [] ∧ p <+: (c :: t)
    · right
      obtain ⟨v, hv⟩ := h.2
      refine ⟨[], v, by simp [← hv], ?_⟩
      rw [← hv, replaceAll_append_match r h.1]
      simp
    · rw [replaceAll_cons_neg r h]
      rcases ih with he | ⟨u, v, hs, he⟩
      · exact Or.inl (by rw [he])
      · exact Or.inr ⟨c :: u, v, by simp [hs], by simp [he]⟩

/-! ## Commutation of entity substitutions -/
theorem not_pfx_ch_drop {p w : List Char} (v : List Char) {ch : Char}
    (hp : p.head? = some ch) (hw : ch ∉ w) {i : Nat} (hi : i < w.length) :
    ¬ p <+: (w ++ v).drop i := by
  intro hpre
  rw [List.drop_append_of_le_length (le_of_lt hi), List.drop_eq_getElem_cons hi,
    List.cons_append] at hpre
  cases p with
  | nil => simp at hp
  | cons a p' =>
    rw [List.cons_prefix_cons] at hpre
    have ha : a = ch := by simpa using hp
    have hwi : w[i] = ch := by rw [← hpre.1, ha]
    exact hw (hwi ▸ List.getElem_mem hi)

theorem replaceAll_ch_skip {p : List Char} (r : List Char) {ch : Char}
    (hp : p.head? = some ch) {w v : List Char} (hw : ch ∉ w) :
    replaceAll p r (w ++ v) = w ++ replaceAll p r v :=
  replaceAll_append_skip r (fun _ hi => not_pfx_ch_drop v hp hw hi)

theorem replaceAll_entity_skip {p u : List Char} (r : List Char) {ch : Char}
    {v : List Char} (hp : p.head? = some ch) (hune : u ≠ [])
    (hut : ch ∉ u.tail) (h0 : ¬ p <+: u ++ v) :
    replaceAll p r (u ++ v) = u ++ replaceAll p r v := by
  cases u with
  | nil => exact absurd rfl hune
  | cons c0 ut =>
    refine replaceAll_append_skip r (fun i hi hpre => ?_)
    cases i with
    | zero => exact h0 (by simpa using hpre)
    | succ j =>
      have hj : j < ut.length := by simpa using hi
      have hdrop : (((c0 :: ut) ++ v).drop (j + 1)) = (ut ++ v).drop j := by simp
      rw [hdrop] at hpre
      exact not_pfx_ch_drop v hp (by simpa using hut) hj hpre

theorem not_pfx_of_head_ch {p : List Char} {ch : Char} (hp : p.head? = some ch)
    {c : Char} (hc : c ≠ ch) {t : List Char} : ¬ p <+: (c :: t) := by
  intro hpre
  cases p with
  | nil => simp at hp
  | cons a p' =>
    rw [List.cons_prefix_cons] at hpre
    exact hc (by rw [← hpre.1]; simpa using hp)

/-- A failed entity match at the start of the text cannot be enabled by a
substitution pass acting on the tail: every region that pass rewrites
starts with a backslash, which entity names do not contain. -/
theorem not_pfx_after_replaceAll {g p r t : List Char}
    (hgbs : '\\' ∉ g.tail) (hr : r.head? = some '\\')
    (h : ¬ g <+: ('&' :: t)) : ¬ g <+: ('&' :: replaceAll p r t) := by
  rcases replaceAll_decomp p r t with he | ⟨u, v, hs, he⟩
  · rw [he]; exact h
  · rw [he]
    intro hpre
    cases g with
    | nil => exact h List.nil_prefix
    | cons a gt =>
      rw [List.cons_prefix_cons] at hpre
      have h2 : gt <+: u ++ (r ++ replaceAll p r v) := by
        simpa [List.append_assoc] using hpre.2
      rcases pfx_append_cases h2 with h1 | ⟨p₂, hp₂, h3⟩
      · refine h (List.cons_prefix_cons.mpr ⟨hpre.1, ?_⟩)
        rw [hs, List.append_assoc]
        exact h1.trans (List.prefix_append u (p ++ v))
      · cases p₂ with
        | nil =>
          refine h (List.cons_prefix_cons.mpr ⟨hpre.1, ?_⟩)
          rw [hs, List.append_assoc]
          have hgu : gt = u := by simpa using hp₂
          exact hgu ▸ List.prefix_append u (p ++ v)
        | cons d p₂' =>
          cases r with
          | nil => simp at hr
          | cons rb r' =>
            have hd : d = rb := by
              have h4 := h3
              rw [List.cons_append, List.cons_prefix_cons] at h4
              exact h4.1
            have hrb : rb = '\\' := by simpa using hr
            refine hgbs ?_
            show '\\' ∈ gt
            rw [hp₂]
            refine List.mem_append_right u ?_
            rw [← hrb, ← hd]
            exact List.mem_cons_self d p₂'

theorem replaceAll_comm_of_shape {p₁ r₁ p₂ r₂ : List Char}
    (h1h : p₁.head? = some '&') (h1amp : '&' ∉ p₁.tail) (h1bs : '\\' ∉ p₁.tail)
    (hr1h : r₁.head? = some '\\') (hr1amp : '&' ∉ r₁)
    (h2h : p₂.head? = some '&') (h2amp : '&' ∉ p₂.tail) (h2bs : '\\' ∉ p₂.tail)
    (hr2h : r₂.head? = some '\\') (hr2amp : '&' ∉ r₂)
    (hne : ¬ p₁ <+: p₂ ∧ ¬ p₂ <+: p₁) (s : List Char) :
    replaceAll p₂ r₂ (replaceAll p₁ r₁ s) =
      replaceAll p₁ r₁ (replaceAll p₂ r₂ s) := by
  have hp₁ne : p₁ ≠ [] := by intro hnil; rw [hnil] at h1h; simp at h1h
  have hp₂ne : p₂ ≠ [] := by intro hnil; rw [hnil] at h2h; simp at h2h
  have main : ∀ n (s : List Char), s.length ≤ n →
      replaceAll p₂ r₂ (replaceAll p₁ r₁ s) =
        replaceAll p₁ r₁ (replaceAll p₂ r₂ s) := by
    intro n
    induction n with
    | zero =>
      intro s hs
      have : s = [] := List.length_eq_zero.mp (Nat.le_zero.mp hs)
      subst this; rfl
    | succ n ih =>
      intro s hs
      cases s with
      | nil => rfl
      | cons c t =>
        by_cases hc : c = '&'
        · subst hc
          by_cases m1 : p₁ <+: ('&' :: t)
          · have m2 : ¬ p₂ <+: ('&' :: t) := fun m2 =>
              (List.prefix_or_prefix_of_prefix m1 m2).elim hne.1 hne.2
            obtain ⟨v, hv⟩ := m1
            have hvlen : v.length ≤ n := by
              have hlen := congrArg List.length hv
              simp at hlen
              have hp1 : 1 ≤ p₁.length := by
                cases p₁ with
                | nil => exact absurd rfl hp₁ne
                | cons a q => simp
              simp at hs
              omega
            have step1 : replaceAll p₁ r₁ ('&' :: t) = r₁ ++ replaceAll p₁ r₁ v := by
              rw [← hv]; exact replaceAll_append_match r₁ hp₁ne
            have step3 : replaceAll p₂ r₂ ('&' :: t) = p₁ ++ replaceAll p₂ r₂ v := by
              rw [← hv]
              exact replaceAll_entity_skip r₂ h2h hp₁ne h1amp (by rw [hv]; exact m2)
            rw [step1, step3, replaceAll_ch_skip r₂ h2h hr1amp,
              replaceAll_append_match r₁ hp₁ne, ih v hvlen]
          · by_cases m2 : p₂ <+: ('&' :: t)
            · obtain ⟨v, hv⟩ := m2
              have hvlen : v.length ≤ n := by
                have hlen := congrArg List.length hv
                simp at hlen
                have hp2 : 1 ≤ p₂.length := by
                  cases p₂ with
                  | nil => exact absurd rfl hp₂ne
                  | cons a q => simp
                simp at hs
                omega
              have step1 : replaceAll p₂ r₂ ('&' :: t) = r₂ ++ replaceAll p₂ r₂ v := by
                rw [← hv]; exact replaceAll_append_match r₂ hp₂ne
              have step3 : replaceAll p₁ r₁ ('&' :: t) = p₂ ++ replaceAll p₁ r₁ v := by
                rw [← hv]
                exact replaceAll_entity_skip r₁ h1h hp₂ne h2amp (by rw [hv]; exact m1)
              rw [step1, step3, replaceAll_ch_skip r₁ h1h hr2amp,
                replaceAll_append_match r₂ hp₂ne, ih v hvlen]
            · have e1 : replaceAll p₁ r₁ ('&' :: t) = '&' :: replaceAll p₁ r₁ t :=
                replaceAll_cons_neg r₁ (fun hand => m1 hand.2)
              have e2 : replaceAll p₂ r₂ ('&' :: t) = '&' :: replaceAll p₂ r₂ t :=
                replaceAll_cons_neg r₂ (fun hand => m2 hand.2)
              rw [e1, e2,
                replaceAll_cons_neg r₂
                  (fun hand => not_pfx_after_replaceAll h2bs hr1h m2 hand.2),
                replaceAll_cons_neg r₁
                  (fun hand => not_pfx_after_replaceAll h1bs hr2h m1 hand.2),
                ih t (by simpa using hs)]
        · have e1 : replaceAll p₁ r₁ (c :: t) = c :: replaceAll p₁ r₁ t :=
            replaceAll_cons_neg r₁ (fun hand => not_pfx_of_head_ch h1h hc hand.2)
          have e2 : replaceAll p₂ r₂ (c :: t) = c :: replaceAll p₂ r₂ t :=
            replaceAll_cons_neg r₂ (fun hand => not_pfx_of_head_ch h2h hc hand.2)
          rw [e1, e2,
            replaceAll_cons_neg r₂
              (fun hand => not_pfx_of_head_ch h2h hc hand.2),
            replaceAll_cons_neg r₁
              (fun hand => not_pfx_of_head_ch h1h hc hand.2),
            ih t (by simpa using hs)]
  exact main s.length s le_rfl

theorem gShape_facts {pr : List Char × List Char} (h : gShapeB pr = true) :
    pr.1.head? = some '&' ∧ '&' ∉ pr.1.tail ∧ '\\' ∉ pr.1.tail ∧
      pr.2.head? = some '\\' ∧ '&' ∉ pr.2 := by
  simp only [gShapeB, Bool.and_eq_true, beq_iff_eq, List.all_eq_true,
    Bool.not_eq_true', beq_eq_false_iff_ne, ne_eq] at h
  obtain ⟨⟨⟨⟨h1, _⟩, h3⟩, h4⟩, h5⟩ := h
  exact ⟨h1, fun hm => (h3 '&' hm).1 rfl, fun hm => (h3 '\\' hm).2 rfl, h4,
    fun hm => h5 '&' hm rfl⟩

theorem greek_shapes : ∀ pr ∈ greekRules, gShapeB pr = true := by decide

theorem greek_pairwise :
    List.Pairwise (fun a b : List Char × List Char =>
      ¬ a.1 <+: b.1 ∧ ¬ b.1 <+: a.1) greekRules := by decide

/-- The Greek block yields the same result under any reordering of its
entries. -/
theorem applyLits_perm {gp : List (List Char × List Char)}
    (hperm : gp.Perm greekRules) (s : List Char) :
    applyLits gp s = applyLits greekRules s := by
  refine hperm.foldl_eq' ?_ s
  intro x hx y hy z
  by_cases hxy : x = y
  · rw [hxy]
  · have hx' : x ∈ greekRules := hperm.subset hx
    have hy' : y ∈ greekRules := hperm.subset hy
    have hR := greek_pairwise.forall
      (fun a b hab => ⟨hab.2, hab.1⟩) hx' hy' hxy
    obtain ⟨hxh, hxamp, hxbs, hxr, hxramp⟩ := gShape_facts (greek_shapes x hx')
    obtain ⟨hyh, hyamp, hybs, hyr, hyramp⟩ := gShape_facts (greek_shapes y hy')
    exact replaceAll_comm_of_shape hxh hxamp hxbs hxr hxramp
      hyh hyamp hybs hyr hyramp ⟨hR.1, hR.2⟩ z

/-! ## The Greek block on entity/inert-character token strings -/
theorem not_pfx_append {p q : List Char} (hpq : ¬ p <+: q) (hqp : ¬ q <+: p)
    {v : List Char} : ¬ p <+: q ++ v := by
  intro h
  rcases pfx_append_cases h with h1 | ⟨p₂, hp₂, _⟩
  · exact hpq h1
  · exact hqp (hp₂ ▸ ⟨p₂, rfl⟩)

theorem applyLits_nil (rs : List (List Char × List Char)) :
    applyLits rs [] = [] := by
  induction rs with
  | nil => rfl
  | cons g rs' ih => simpa [applyLits, replaceAll_nil] using ih

theorem applyLits_cons_skip {rs : List (List Char × List Char)}
    (hshape : ∀ pr ∈ rs, gShapeB pr = true) {c : Char} (hc : c ≠ '&')
    (x : List Char) : applyLits rs (c :: x) = c :: applyLits rs x := by
  induction rs generalizing x with
  | nil => rfl
  | cons g rs' ih =>
    have hg := gShape_facts (hshape g (List.mem_cons_self g rs'))
    show applyLits rs' (replaceAll g.1 g.2 (c :: x)) = _
    rw [replaceAll_cons_neg g.2 (fun hand => not_pfx_of_head_ch hg.1 hc hand.2)]
    exact ih (fun pr hpr => hshape pr (List.mem_cons_of_mem g hpr)) _

theorem applyLits_amp_skip {rs : List (List Char × List Char)}
    (hshape : ∀ pr ∈ rs, gShapeB pr = true) {w : List Char} (hw : '&' ∉ w)
    (x : List Char) : applyLits rs (w ++ x) = w ++ applyLits rs x := by
  induction rs generalizing x with
  | nil => rfl
  | cons g rs' ih =>
    have hg := gShape_facts (hshape g (List.mem_cons_self g rs'))
    show applyLits rs' (replaceAll g.1 g.2 (w ++ x)) = _
    rw [replaceAll_ch_skip g.2 hg.1 hw]
    exact ih (fun pr hpr => hshape pr (List.mem_cons_of_mem g hpr)) _

theorem applyLits_entity {rs : List (List Char × List Char)}
    (hshape : ∀ pr ∈ rs, gShapeB pr = true)
    {pr₀ : List Char × List Char} (h₀ : pr₀ ∈ rs)
    (hnp : ∀ pr ∈ rs, pr ≠ pr₀ → ¬ pr.1 <+: pr₀.1 ∧ ¬ pr₀.1 <+: pr.1)
    (x : List Char) :
    applyLits rs (pr₀.1 ++ x) = pr₀.2 ++ applyLits rs x := by
  induction rs generalizing x with
  | nil => exact absurd h₀ (List.not_mem_nil pr₀)
  | cons g rs' ih =>
    have hshape' : ∀ pr ∈ rs', gShapeB pr = true :=
      fun pr hpr => hshape pr (List.mem_cons_of_mem g hpr)
    have hg := gShape_facts (hshape g (List.mem_cons_self g rs'))
    have h₀g := gShape_facts (hshape pr₀ h₀)
    have hp₀ne : pr₀.1 ≠ [] := by
      intro hnil; rw [hnil] at h₀g; simpa using h₀g.1
    by_cases hgp : g = pr₀
    · subst hgp
      show applyLits rs' (replaceAll g.1 g.2 (g.1 ++ x)) = _
      rw [replaceAll_append_match g.2 hp₀ne,
        applyLits_amp_skip hshape' h₀g.2.2.2.2]
      rfl
    · have hmut := hnp g (List.mem_cons_self g rs') hgp
      show applyLits rs' (replaceAll g.1 g.2 (pr₀.1 ++ x)) = _
      rw [replaceAll_entity_skip g.2 hg.1 hp₀ne h₀g.2.1
          (not_pfx_append hmut.1 hmut.2)]
      have h₀' : pr₀ ∈ rs' := by
        rcases List.mem_cons.mp h₀ with h | h
        · exact absurd h.symm hgp
        · exact h
      exact ih hshape' h₀'
        (fun pr hpr hne => hnp pr (List.mem_cons_of_mem g hpr) hne) _

theorem applyLits_greek_flatten :
    ∀ {toks : List Tok}, (∀ t ∈ toks, TokOk t) →
      applyLits greekRules (flattenIn toks) = flattenOut toks := by
  intro toks
  induction toks with
  | nil => intro _; exact applyLits_nil greekRules
  | cons t rest ih =>
    intro h
    have hrest := fun t' ht' => h t' (List.mem_cons_of_mem t ht')
    cases t with
    | chr c =>
      have hc : c ≠ '&' := by
        have := (h (.chr c) (List.mem_cons_self _ _)).1
        intro hceq; exact this (by rw [hceq]; decide)
      show applyLits greekRules (c :: flattenIn rest) = c :: flattenOut rest
      rw [applyLits_cons_skip greek_shapes hc, ih hrest]
    | ent i =>
      have hmem : greekRules.get i ∈ greekRules := by
        exact List.get_mem greekRules i.1 i.2
      show applyLits greekRules ((greekRules.get i).1 ++ flattenIn rest) =
        (greekRules.get i).2 ++ flattenOut rest
      rw [applyLits_entity greek_shapes hmem
          (fun pr hpr hne => by
            have hsym : Symmetric (fun a b : List Char × List Char =>
                ¬ a.1 <+: b.1 ∧ ¬ b.1 <+: a.1) := fun a b hab => ⟨hab.2, hab.1⟩
            exact greek_pairwise.forall hsym hpr hmem hne),
        ih hrest]

theorem not_dots_ifx {s : List Char} (h : '.' ∉ s) : ¬ "...".data <:+: s :=
  fun hi => h (hi.subset (by decide))

theorem foldl_lit_map (rs : List (List Char × List Char)) (s : List Char) :
    (rs.map (fun pr => Rule.lit pr.1 pr.2)).foldl applyRule s = applyLits rs s := by
  induction rs generalizing s with
  | nil => rfl
  | cons g rs' ih =>
    show (rs'.map (fun pr => Rule.lit pr.1 pr.2)).foldl applyRule
      (replaceAll g.1 g.2 s) = _
    rw [ih]
    rfl

theorem flattenIn_chars {toks : List Tok} (h : ∀ t ∈ toks, TokOk t)
    {ts : List Char} (hts : ∀ c ∈ ts, c ∈ trigAll)
    (hent : ∀ pr ∈ greekRules, ∀ c ∈ pr.1, c ∉ ts) :
    ∀ c ∈ flattenIn toks, c ∉ ts := by
  intro c hc hcts
  obtain ⟨x, hx, hcx⟩ := List.mem_flatten.mp hc
  obtain ⟨t, ht, hxt⟩ := List.mem_map.mp hx
  cases t with
  | chr c' =>
    have : c = c' := by
      rw [← hxt] at hcx
      simpa [tokIn] using hcx
    exact (h _ ht).1 (this ▸ hts c hcts)
  | ent i =>
    have hmem : greekRules.get i ∈ greekRules := List.get_mem greekRules i.1 i.2
    exact hent _ hmem c (by rw [← hxt] at hcx; exact hcx) hcts

theorem flattenOut_chars {toks : List Tok} (h : ∀ t ∈ toks, TokOk t)
    {ts : List Char} (hts : ∀ c ∈ ts, c ∈ trigAll)
    (hent : ∀ pr ∈ greekRules, ∀ c ∈ pr.2, c ∉ ts) :
    ∀ c ∈ flattenOut toks, c ∉ ts := by
  intro c hc hcts
  obtain ⟨x, hx, hcx⟩ := List.mem_flatten.mp hc
  obtain ⟨t, ht, hxt⟩ := List.mem_map.mp hx
  cases t with
  | chr c' =>
    have : c = c' := by
      rw [← hxt] at hcx
      simpa [tokOut] using hcx
    exact (h _ ht).1 (this ▸ hts c hcts)
  | ent i =>
    have hmem : greekRules.get i ∈ greekRules := List.get_mem greekRules i.1 i.2
    exact hent _ hmem c (by rw [← hxt] at hcx; exact hcx) hcts

theorem flattenIn_no_dot {toks : List Tok} (h : ∀ t ∈ toks, TokOk t) :
    '.' ∉ flattenIn toks := by
  intro hc
  obtain ⟨x, hx, hcx⟩ := List.mem_flatten.mp hc
  obtain ⟨t, ht, hxt⟩ := List.mem_map.mp hx
  cases t with
  | chr c' =>
    have : ('.' : Char) = c' := by rw [← hxt] at hcx; simpa [tokIn] using hcx
    exact (h _ ht).2 this.symm
  | ent i =>
    have hmem : greekRules.get i ∈ greekRules := List.get_mem greekRules i.1 i.2
    have hno : ∀ pr ∈ greekRules, '.' ∉ pr.1 := by decide
    exact hno _ hmem (by rw [← hxt] at hcx; exact hcx)

theorem flattenOut_no_dot {toks : List Tok} (h : ∀ t ∈ toks, TokOk t) :
    '.' ∉ flattenOut toks := by
  intro hc
  obtain ⟨x, hx, hcx⟩ := List.mem_flatten.mp hc
  obtain ⟨t, ht, hxt⟩ := List.mem_map.mp hx
  cases t with
  | chr c' =>
    have : ('.' : Char) = c' := by rw [← hxt] at hcx; simpa [tokOut] using hcx
    exact (h _ ht).2 this.symm
  | ent i =>
    have hmem : greekRules.get i ∈ greekRules := List.get_mem greekRules i.1 i.2
    have hno : ∀ pr ∈ greekRules, '.' ∉ pr.2 := by decide
    exact hno _ hmem (by rw [← hxt] at hcx; exact hcx)

/-- On a string of inert characters and Greek entities, the Symbol Table
acts exactly as the Greek mapping. -/
theorem convertFragmentL_flatten {toks : List Tok} (h : ∀ t ∈ toks, TokOk t) :
    convertFragmentL (flattenIn toks) = flattenOut toks := by
  have hpre : tablePre.foldl applyRule (flattenIn toks) = flattenIn toks := by
    refine tableSegment_id tsPre (by decide)
      (flattenIn_chars h (by decide) (by decide)) ?_
    exact not_dots_ifx (flattenIn_no_dot h)
  have hpost : tablePost.foldl applyRule (flattenOut toks) = flattenOut toks := by
    refine tableSegment_id tsPost (by decide)
      (flattenOut_chars h (by decide) (by decide)) ?_
    exact not_dots_ifx (flattenOut_no_dot h)
  show html2latex.foldl applyRule (flattenIn toks) = _
  rw [html2latex, List.foldl_append, List.foldl_append, hpre, foldl_lit_map,
    applyLits_greek_flatten h, hpost]

/-- The converted form of a token string is a fixed point of the Symbol
Table. -/
theorem convertFragmentL_flatten_fixed {toks : List Tok}
    (h : ∀ t ∈ toks, TokOk t) :
    convertFragmentL (flattenOut toks) = flattenOut toks := by
  refine convertFragmentL_id
    (flattenOut_chars h (fun c hc => hc) (by decide)) ?_
  exact not_dots_ifx (flattenOut_no_dot h)

/-! ## Evaluation of the simple-fraction pattern -/
theorem takeWhile_append_stop {q : Char → Bool} :
    ∀ {A : List Char}, (∀ c ∈ A, q c = true) → ∀ {c : Char}, q c = false →
      ∀ (v : List Char), (A ++ c :: v).takeWhile q = A := by
  intro A
  induction A with
  | nil =>
    intro _ c hc v
    rw [List.nil_append]
    exact List.takeWhile_cons_of_neg (by simp [hc])
  | cons a A' ih =>
    intro hA c hc v
    rw [List.cons_append,
      List.takeWhile_cons_of_pos (hA a (List.mem_cons_self a A')),
      ih (fun x hx => hA x (List.mem_cons_of_mem a hx)) hc v]

theorem fracOperand_eval {A : List Char} (hne : A ≠ [])
    (hstop : ∀ c ∈ A, isFracStop c = false) (hsp : A.head? ≠ some ' ')
    (v : List Char) : fracOperand (A ++ ')' :: v) = some (A, v) := by
  have hrun : (A ++ ')' :: v).takeWhile (fun c => !isFracStop c) = A :=
    takeWhile_append_stop (fun c hc => by simp [hstop c hc]) (by decide) v
  have hk : A.takeWhile (fun c => c == ' ') = [] := by
    cases A with
    | nil => rfl
    | cons a A' =>
      have : a ≠ ' ' := fun h => hsp (by simp [h])
      exact List.takeWhile_cons_of_neg (by simpa using this)
  have hAe : A.isEmpty = false := by
    cases A with
    | nil => exact absurd rfl hne
    | cons a A' => rfl
  have hlen0 : ¬ ((0 : Nat) = A.length) := by
    cases A with
    | nil => exact absurd rfl hne
    | cons a A' => simp
  unfold fracOperand
  rw [hrun]
  simp [hAe, hk, hlen0, List.drop_left]

theorem fracMatchAt_eval {A B : List Char}
    (hAne : A ≠ []) (hAstop : ∀ c ∈ A, isFracStop c = false)
    (hAsp : A.head? ≠ some ' ')
    (hBne : B ≠ []) (hBstop : ∀ c ∈ B, isFracStop c = false)
    (hBsp : B.head? ≠ some ' ') :
    fracMatchAt ('(' :: (A ++ ')' :: '/' :: '(' :: (B ++ [')']))) =
      some (cfracRepl A B, []) := by
  show fracAfterParen (A ++ ')' :: ('/' :: '(' :: (B ++ [')']))) = _
  unfold fracAfterParen
  rw [fracOperand_eval hAne hAstop hAsp]
  show (match fracOperand (B ++ ')' :: []) with
    | some (g2, r6) => some (cfracRepl A g2, r6)
    | none => none) = _
  rw [fracOperand_eval hBne hBstop hBsp]

theorem fracPass_eval {A B : List Char}
    (hAne : A ≠ []) (hAstop : ∀ c ∈ A, isFracStop c = false)
    (hAsp : A.head? ≠ some ' ')
    (hBne : B ≠ []) (hBstop : ∀ c ∈ B, isFracStop c = false)
    (hBsp : B.head? ≠ some ' ') :
    subDriver fracMatchAt (fracIn A B) = cfracRepl A B := by
  rw [fracIn, subDriver_cons_some
    (fracMatchAt_eval hAne hAstop hAsp hBne hBstop hBsp) (by simp),
    subDriver_nil, List.append_nil]

theorem sfx_append_cases {l x y : List Char} (h : l <:+ x ++ y) :
    l <:+ y ∨ ∃ l', l = l' ++ y ∧ l' <:+ x := by
  induction x generalizing l with
  | nil => exact Or.inl (by simpa using h)
  | cons c x' ih =>
    rw [List.cons_append, List.suffix_cons_iff] at h
    rcases h with h | h
    · exact Or.inr ⟨c :: x', by rw [h, List.cons_append], List.suffix_refl _⟩
    · rcases ih h with h1 | ⟨l', hl', hsfx⟩
      · exact Or.inl h1
      · exact Or.inr ⟨l', hl', hsfx.trans (List.suffix_cons c x')⟩

theorem dots_mem_of_ne {l : List Char} (hl : ∀ c ∈ l, c = '.') (hne : l ≠ []) :
    '.' ∈ l := by
  cases l with
  | nil => exact absurd rfl hne
  | cons c t => exact (hl c (List.mem_cons_self c t)) ▸ List.mem_cons_self c t

/-- The ellipsis token cannot straddle the seams of a five-part
concatenation whose literal parts are dot-free. -/
theorem not_dots_five {L1 L2 L3 A B : List Char}
    (h1 : '.' ∉ L1) (h2 : '.' ∉ L2) (h3 : '.' ∉ L3) (h2ne : L2 ≠ [])
    (hA : ¬ "...".data <:+: A) (hB : ¬ "...".data <:+: B) :
    ¬ "...".data <:+: ((((L1 ++ A) ++ L2) ++ B) ++ L3) := by
  have hdall : ∀ c ∈ "...".data, c = '.' := by decide
  have hdmem : '.' ∈ "...".data := by decide
  intro h
  rcases ifx_append_cases h with h | h | ⟨s1, s2, hp, hn1, hn2, hs1, hs2⟩
  · rcases ifx_append_cases h with h | h | ⟨s1, s2, hp, hn1, hn2, hs1, hs2⟩
    · rcases ifx_append_cases h with h | h | ⟨s1, s2, hp, hn1, hn2, hs1, hs2⟩
      · rcases ifx_append_cases h with h | h | ⟨s1, s2, hp, hn1, hn2, hs1, hs2⟩
        · exact h1 (h.subset hdmem)
        · exact hA h
        · have hs1dots : ∀ c ∈ s1, c = '.' :=
            fun c hc => hdall c (hp ▸ List.mem_append_left s2 hc)
          exact h1 (hs1.subset (dots_mem_of_ne hs1dots hn1))
      · exact h2 (h.subset hdmem)
      · have hs2dots : ∀ c ∈ s2, c = '.' :=
          fun c hc => hdall c (hp ▸ List.mem_append_right s1 hc)
        exact h2 (hs2.subset (dots_mem_of_ne hs2dots hn2))
    · exact hB h
    · have hs1dots : ∀ c ∈ s1, c = '.' :=
        fun c hc => hdall c (hp ▸ List.mem_append_left s2 hc)
      rcases sfx_append_cases hs1 with h4 | ⟨l', hl', _⟩
      · exact h2 (h4.subset (dots_mem_of_ne hs1dots hn1))
      · obtain ⟨c2, hc2⟩ := List.exists_mem_of_ne_nil L2 h2ne
        have : c2 ∈ s1 := hl' ▸ List.mem_append_right l' hc2
        exact h2 (hs1dots c2 this ▸ hc2)
  · exact h3 (h.subset hdmem)
  · have hs2dots : ∀ c ∈ s2, c = '.' :=
      fun c hc => hdall c (hp ▸ List.mem_append_right s1 hc)
    exact h3 (hs2.subset (dots_mem_of_ne hs2dots hn2))

theorem mem_fracIn {c : Char} {A B : List Char} (h : c ∈ fracIn A B) :
    c ∈ A ∨ c ∈ B ∨ c = '(' ∨ c = ')' ∨ c = '/' := by
  simp only [fracIn, List.mem_cons, List.mem_append] at h
  tauto

theorem mem_cfracRepl {c : Char} {A B : List Char} (h : c ∈ cfracRepl A B) :
    c ∈ A ∨ c ∈ B ∨ c ∈ "\\cfrac\x7b\x7d".data := by
  have hlit : ∀ x ∈ "\\cfrac\x7b".data, x ∈ "\\cfrac\x7b\x7d".data := by decide
  have hlit2 : ∀ x ∈ "\x7d\x7b".data, x ∈ "\\cfrac\x7b\x7d".data := by decide
  have hlit3 : ∀ x ∈ "\x7d".data, x ∈ "\\cfrac\x7b\x7d".data := by decide
  rcases List.mem_append.mp h with h | h
  · rcases List.mem_append.mp h with h | h
    · rcases List.mem_append.mp h with h | h
      · rcases List.mem_append.mp h with h | h
        · exact Or.inr (Or.inr (hlit c h))
        · exact Or.inl h
      · exact Or.inr (Or.inr (hlit2 c h))
    · exact Or.inr (Or.inl h)
  · exact Or.inr (Or.inr (hlit3 c h))

/-- On an `(A)/(B)` fragment with well-behaved operands, the Symbol Table
produces exactly the fraction construct: the entries before the fraction
pattern leave the fragment alone, the fraction entry consumes it whole,
and every later entry leaves the produced construct alone. -/
theorem fracIn_conversion {A B : List Char} (hA : OperandOk A) (hB : OperandOk B) :
    convertFragmentL (fracIn A B) = cfracRepl A B := by
  have hPunct : ∀ (D : List Char), (∀ c ∈ D, c ∉ gPunct) →
      ∀ c ∈ D, isFracStop c = false := by
    intro D hD c hc
    have hnp := hD c hc
    simp only [isFracStop, Bool.or_eq_false_iff, beq_eq_false_iff_ne, ne_eq]
    exact ⟨⟨⟨fun h => hnp (h ▸ by decide), fun h => hnp (h ▸ by decide)⟩,
      fun h => hnp (h ▸ by decide)⟩, fun h => hnp (h ▸ by decide)⟩
  have hAstop := hPunct A hA.chars
  have hBstop := hPunct B hB.chars
  have hdotsIn : ¬ "...".data <:+: fracIn A B := by
    have hshape : fracIn A B = ((((['('] ++ A) ++ [')', '/', '(']) ++ B) ++ [')']) := by
      simp [fracIn]
    rw [hshape]
    exact not_dots_five (by decide) (by decide) (by decide) (by decide)
      hA.dots hB.dots
  have hdotsOut : ¬ "...".data <:+: cfracRepl A B := by
    have hshape : cfracRepl A B =
        (((("\\cfrac\x7b".data ++ A) ++ "\x7d\x7b".data) ++ B) ++ "\x7d".data) := rfl
    rw [hshape]
    exact not_dots_five (by decide) (by decide) (by decide) (by decide)
      hA.dots hB.dots
  have hchIn : ∀ c ∈ fracIn A B, c ∉ (['\x7b', '\x7d'] : List Char) := by
    intro c hc hmem
    have hsub : ∀ x ∈ (['\x7b', '\x7d'] : List Char), x ∈ gPunct := by decide
    rcases mem_fracIn hc with h | h | h | h | h
    · exact hA.chars c h (hsub c hmem)
    · exact hB.chars c h (hsub c hmem)
    · subst h; exact absurd hmem (by decide)
    · subst h; exact absurd hmem (by decide)
    · subst h; exact absurd hmem (by decide)
  have hchOut : ∀ (ts : List Char), (∀ x ∈ ts, x ∈ gPunct) →
      (∀ x ∈ "\\cfrac\x7b\x7d".data, x ∉ ts) →
      ∀ c ∈ cfracRepl A B, c ∉ ts := by
    intro ts hts hlit c hc hmem
    rcases mem_cfracRepl hc with h | h | h
    · exact hA.chars c h (hts c hmem)
    · exact hB.chars c h (hts c hmem)
    · exact hlit c h hmem
  show html2latex.foldl applyRule (fracIn A B) = _
  rw [html2latex, List.foldl_append, List.foldl_append]
  have hsplitPre : tablePre =
      ([Rule.lit "\x7b".data "\\left \x7b".data,
        Rule.lit "\x7d".data "\\right \x7d".data] ++ [Rule.frac]) ++
      [Rule.lit "(".data "\\left (".data,
       Rule.lit ")".data "\\right )".data,
       Rule.lit "[".data "\\left [".data,
       Rule.lit "]".data "\\right ]".data,
       Rule.sums "&Sigma;".data "\\sum".data,
       Rule.sums "&Pi;".data "\\prod".data] := rfl
  rw [hsplitPre, List.foldl_append, List.foldl_append,
    tableSegment_id ['\x7b', '\x7d'] (by decide) hchIn hdotsIn]
  have hfrac : List.foldl applyRule (fracIn A B) [Rule.frac] = cfracRepl A B := by
    show applyRule (fracIn A B) Rule.frac = _
    exact fracPass_eval hA.ne hAstop hA.head_sp hB.ne hBstop hB.head_sp
  rw [hfrac,
    tableSegment_id ['(', ')', '[', ']', '<'] (by decide)
      (hchOut _ (by decide) (by decide)) hdotsOut,
    tableSegment_id ['&'] (by decide)
      (hchOut _ (by decide) (by decide)) hdotsOut,
    tableSegment_id tsPost (by decide)
      (hchOut _ (by decide) (by decide)) hdotsOut]

/-! ## Generic occurrence analysis for literal patterns -/
theorem take_of_append_eq {s1 s2 p : List Char} (h : s1 ++ s2 = p) :
    p.take s1.length = s1 := by
  rw [← h, List.take_left]

theorem drop_of_append_eq {s1 s2 p : List Char} (h : s1 ++ s2 = p) :
    p.drop s1.length = s2 := by
  rw [← h, List.drop_left]

/-- Refute `p <:+: x ++ y` by refuting occurrences inside each part and
occurrences straddling the seam (given by a split index of `p`). -/
theorem not_ifx_append_of {p x y : List Char}
    (hx : ¬ p <:+: x) (hy : ¬ p <:+: y)
    (hcross : ∀ k, 0 < k → k < p.length → ¬ (p.take k <:+ x ∧ p.drop k <+: y)) :
    ¬ p <:+: x ++ y := by
  intro h
  rcases ifx_append_cases h with h | h | ⟨s1, s2, hp, hn1, hn2, hs1, hs2⟩
  · exact hx h
  · exact hy h
  · have hk1 : 0 < s1.length := List.length_pos.mpr hn1
    have hk2 : s1.length < p.length := by
      have := congrArg List.length hp
      simp at this
      have := List.length_pos.mpr hn2
      omega
    refine hcross s1.length hk1 hk2 ⟨?_, ?_⟩
    · rw [take_of_append_eq hp.symm]; exact hs1
    · rw [drop_of_append_eq hp.symm]; exact hs2

/-- Skip a match-free region: the pattern occurs nowhere in `w` and
cannot straddle the seam, so substitution passes `w` through. -/
theorem replaceAll_append_skip_lit {p : List Char} (r : List Char)
    {w v : List Char} (hw : ¬ p <:+: w)
    (hcross : ∀ k, 0 < k → k < p.length → ¬ (p.take k <:+ w ∧ p.drop k <+: v)) :
    replaceAll p r (w ++ v) = w ++ replaceAll p r v := by
  refine replaceAll_append_skip r (fun i hi hpre => ?_)
  rw [List.drop_append_of_le_length (le_of_lt hi)] at hpre
  have hwd : w.drop i <:+ w := List.drop_suffix i w
  have hwdlen : 0 < (w.drop i).length := by
    simp only [List.length_drop]
    omega
  rcases pfx_append_cases hpre with h1 | ⟨p₂, hp₂, h2⟩
  · exact hw (ifx_of_pfx_of_sfx h1 hwd)
  · by_cases hp₂nil : p₂ = []
    · subst hp₂nil
      rw [List.append_nil] at hp₂
      exact hw (by rw [hp₂]; exact hwd.isInfix)
    · have hk2 : (w.drop i).length < p.length := by
        have hlen := congrArg List.length hp₂
        simp only [List.length_append, List.length_drop] at hlen
        have := List.length_pos.mpr hp₂nil
        simp only [List.length_drop]
        omega
      refine hcross (w.drop i).length hwdlen hk2 ⟨?_, ?_⟩
      · rw [take_of_append_eq hp₂.symm]
        exact hwd
      · rw [drop_of_append_eq hp₂.symm]
        exact h2

/-- A literal pattern maps to its replacement when standing alone. -/
theorem replaceAll_self {p : List Char} (r : List Char) (hp : p ≠ []) :
    replaceAll p r p = r := by
  have h := replaceAll_append_match r (v := []) hp
  rw [List.append_nil] at h
  rw [h, replaceAll_nil, List.append_nil]

/-- Evaluation of a reluctant capture: if the tail matcher rejects every
strictly earlier split and accepts at `g`, the capture is exactly `g`. -/
theorem lazyCap_eval {α : Type} {tail : List Char → Option α}
    {a : α} : ∀ {g rest : List Char},
    (∀ k, k < g.length → tail (g.drop k ++ rest) = none) →
    tail rest = some a →
    lazyCap tail (g ++ rest) = some (g, a) := by
  intro g
  induction g with
  | nil =>
    intro rest _ hrest
    cases rest with
    | nil => show (tail []).map _ = _; rw [hrest]; rfl
    | cons c t => show lazyCap tail (c :: t) = _; rw [lazyCap, hrest]
  | cons c g' ih =>
    intro rest hfail hrest
    show lazyCap tail (c :: (g' ++ rest)) = _
    rw [lazyCap]
    have h0 : tail (c :: (g' ++ rest)) = none := by
      have := hfail 0 (by simp)
      simpa using this
    rw [h0, ih (fun k hk => by simpa using hfail (k + 1) (by simpa using hk)) hrest]
    rfl

/-! ## Sub/superscript tag substitution -/
theorem take_pos_head {p : List Char} {c : Char} (hp : p.head? = some c)
    {k : Nat} (hk : 0 < k) : c ∈ p.take k := by
  cases p with
  | nil => simp at hp
  | cons a t =>
    cases k with
    | zero => omega
    | succ k =>
      have ha : a = c := by simpa using hp
      rw [List.take_succ_cons]
      exact ha ▸ List.mem_cons_self a (t.take k)

theorem subOk_no_lt {X : List Char} (hX : SubOk X) : '<' ∉ X :=
  fun h => hX.1 '<' h (by decide)

theorem sub_open_eval {X v : List Char} (hlt : '<' ∉ X)
    (hv : ¬ "<sub>".data <:+: v)
    (hvp : ∀ k, 0 < k → k < 5 → ¬ ("<sub>".data.take k <:+ X ∧
      "<sub>".data.drop k <+: v)) :
    replaceAll "<sub>".data "_\x7b".data ("<sub>".data ++ (X ++ v)) =
      "_\x7b".data ++ (X ++ v) := by
  rw [replaceAll_append_match _ (by decide)]
  rw [replaceAll_of_not_ifx _ (not_ifx_append_of (fun h => hlt (h.subset (by decide)))
    hv hvp)]

theorem tablePost_split : tablePost =
      ([Rule.lit "<sub>".data "_\x7b".data] ++ [Rule.lit "</sub>".data "\x7d".data]) ++
      [Rule.lit "<sup>".data "^\x7b".data,
       Rule.lit "</sup>".data "\x7d".data,
       Rule.bold "<b>".data "</b>".data,
       Rule.bold "<strong>".data "</strong>".data,
       Rule.lit "ℝ".data "\\mathbb\x7bR\x7d".data,
       Rule.lit "ℚ".data "\\mathbb\x7bQ\x7d".data,
       Rule.lit "ℂ".data "\\mathbb\x7bC\x7d".data,
       Rule.lit "ℤ".data "\\mathbb\x7bZ\x7d".data,
       Rule.lit "ℕ".data "\\mathbb\x7bN\x7d".data,
       Rule.lit "&lt;".data "<".data,
       Rule.lit "&gt;".data ">".data,
       Rule.lit "&le;".data "\\leq ".data,
       Rule.lit "&ge;".data "\\geq ".data,
       Rule.lit "&ne;".data "\\neq ".data,
       Rule.lit "&plusmn;".data "\\pm ".data,
       Rule.lit "&isin;".data "\\in ".data,
       Rule.lit "&notin;".data "\\notin ".data,
       Rule.radic,
       Rule.lit "&asymp;".data "\\approx ".data,
       Rule.lit "&oplus;".data "\\oplus ".data,
       Rule.lit "&Implies;".data "\\implies".data,
       Rule.lit "&times;".data "\\times".data,
       Rule.lit "&middot;".data "\\cdot".data,
       Rule.lit "&infin;".data "\\inf ".data,
       Rule.lit "...".data "\\cdots ".data,
       Rule.lit "&ell;".data "\\ell ".data] := rfl

theorem subConvert {X : List Char} (hX : SubOk X) :
    convertFragmentL ("<sub>".data ++ (X ++ "</sub>".data)) =
      "_\x7b".data ++ (X ++ "\x7d".data) := by
  have hlt : '<' ∉ X := subOk_no_lt hX
  have hdotsIn : ¬ "...".data <:+: "<sub>".data ++ (X ++ "</sub>".data) := by
    have hshape : "<sub>".data ++ (X ++ "</sub>".data) =
        (((("<sub>".data ++ X) ++ "</sub>".data) ++ []) ++ []) := by simp
    rw [hshape]
    exact not_dots_five (by decide) (by decide) (by decide) (by decide)
      hX.2 (by decide)
  have hdotsOut : ¬ "...".data <:+: ("_\x7b".data ++ X) ++ "\x7d".data := by
    have hshape : ("_\x7b".data ++ X) ++ "\x7d".data =
        (((("_\x7b".data ++ X) ++ "\x7d".data) ++ []) ++ []) := by simp
    rw [hshape]
    exact not_dots_five (by decide) (by decide) (by decide) (by decide)
      hX.2 (by decide)
  have hchIn : ∀ ts : List Char, (∀ x ∈ ts, x ∈ trigAll) →
      (∀ x ∈ "<sub></sub>".data, x ∉ ts) →
      ∀ c ∈ "<sub>".data ++ (X ++ "</sub>".data), c ∉ ts := by
    intro ts hts hlit c hc hmem
    have hs1 : ∀ x ∈ "<sub>".data, x ∈ "<sub></sub>".data := by decide
    have hs2 : ∀ x ∈ "</sub>".data, x ∈ "<sub></sub>".data := by decide
    rcases List.mem_append.mp hc with h | h
    · exact hlit c (hs1 c h) hmem
    · rcases List.mem_append.mp h with h | h
      · exact hX.1 c h (hts c hmem)
      · exact hlit c (hs2 c h) hmem
  have hchOut : ∀ ts : List Char, (∀ x ∈ ts, x ∈ trigAll) →
      (∀ x ∈ "_\x7b\x7d".data, x ∉ ts) →
      ∀ c ∈ ("_\x7b".data ++ X) ++ "\x7d".data, c ∉ ts := by
    intro ts hts hlit c hc hmem
    have hs1 : ∀ x ∈ "_\x7b".data, x ∈ "_\x7b\x7d".data := by decide
    have hs2 : ∀ x ∈ "\x7d".data, x ∈ "_\x7b\x7d".data := by decide
    rcases List.mem_append.mp hc with h | h
    · rcases List.mem_append.mp h with h | h
      · exact hlit c (hs1 c h) hmem
      · exact hX.1 c h (hts c hmem)
    · exact hlit c (hs2 c h) hmem
  show html2latex.foldl applyRule _ = _
  rw [html2latex, List.foldl_append, List.foldl_append,
    tableSegment_id ['\x7b', '\x7d', '(', ')', '[', ']', '&'] (by decide)
      (hchIn _ (by decide) (by decide)) hdotsIn,
    tableSegment_id ['&'] (by decide) (hchIn _ (by decide) (by decide)) hdotsIn]
  rw [tablePost_split, List.foldl_append, List.foldl_append]
  have h1 : List.foldl applyRule ("<sub>".data ++ (X ++ "</sub>".data))
      [Rule.lit "<sub>".data "_\x7b".data] =
      "_\x7b".data ++ (X ++ "</sub>".data) := by
    simp only [List.foldl_cons, List.foldl_nil, applyRule]
    refine sub_open_eval hlt (by decide) ?_
    intro k hk hk5
    rintro ⟨hs1, _⟩
    exact hlt (hs1.subset (take_pos_head (c := '<') (by decide) hk))
  rw [h1]
  have h2 : List.foldl applyRule ("_\x7b".data ++ (X ++ "</sub>".data))
      [Rule.lit "</sub>".data "\x7d".data] =
      ("_\x7b".data ++ X) ++ "\x7d".data := by
    simp only [List.foldl_cons, List.foldl_nil, applyRule]
    have hshape : "_\x7b".data ++ (X ++ "</sub>".data) =
        ("_\x7b".data ++ X) ++ "</sub>".data := by simp
    rw [hshape]
    have hw : ¬ "</sub>".data <:+: "_\x7b".data ++ X := by
      refine not_ifx_append_of (by decide) (fun h => hlt (h.subset (by decide))) ?_
      intro k hk hk6
      rintro ⟨hs1, _⟩
      exact absurd (hs1.subset (take_pos_head (c := '<') (by decide) hk))
        (by decide)
    rw [replaceAll_append_skip_lit _ hw ?_]
    · rw [replaceAll_self _ (by decide)]
    · intro k hk hk6
      rintro ⟨hs1, _⟩
      have : '<' ∈ "_\x7b".data ++ X :=
        hs1.subset (take_pos_head (c := '<') (by decide) hk)
      rcases List.mem_append.mp this with h | h
      · exact absurd h (by decide)
      · exact hlt h
  rw [h2]
  exact tableSegment_id tsPost (by decide) (hchOut _ (by decide) (by decide))
    hdotsOut

theorem subMismatch {X : List Char} (hX : SubOk X) :
    convertFragmentL ("</sub>".data ++ (X ++ "<sub>".data)) =
      "\x7d".data ++ (X ++ "_\x7b".data) := by
  have hlt : '<' ∉ X := subOk_no_lt hX
  have hdotsIn : ¬ "...".data <:+: "</sub>".data ++ (X ++ "<sub>".data) := by
    have hshape : "</sub>".data ++ (X ++ "<sub>".data) =
        (((("</sub>".data ++ X) ++ "<sub>".data) ++ []) ++ []) := by simp
    rw [hshape]
    exact not_dots_five (by decide) (by decide) (by decide) (by decide)
      hX.2 (by decide)
  have hdotsOut : ¬ "...".data <:+: "\x7d".data ++ (X ++ "_\x7b".data) := by
    have hshape : "\x7d".data ++ (X ++ "_\x7b".data) =
        (((("\x7d".data ++ X) ++ "_\x7b".data) ++ []) ++ []) := by simp
    rw [hshape]
    exact not_dots_five (by decide) (by decide) (by decide) (by decide)
      hX.2 (by decide)
  have hchIn : ∀ ts : List Char, (∀ x ∈ ts, x ∈ trigAll) →
      (∀ x ∈ "<sub></sub>".data, x ∉ ts) →
      ∀ c ∈ "</sub>".data ++ (X ++ "<sub>".data), c ∉ ts := by
    intro ts hts hlit c hc hmem
    have hs1 : ∀ x ∈ "<sub>".data, x ∈ "<sub></sub>".data := by decide
    have hs2 : ∀ x ∈ "</sub>".data, x ∈ "<sub></sub>".data := by decide
    rcases List.mem_append.mp hc with h | h
    · exact hlit c (hs2 c h) hmem
    · rcases List.mem_append.mp h with h | h
      · exact hX.1 c h (hts c hmem)
      · exact hlit c (hs1 c h) hmem
  have hchOut : ∀ ts : List Char, (∀ x ∈ ts, x ∈ trigAll) →
      (∀ x ∈ "_\x7b\x7d".data, x ∉ ts) →
      ∀ c ∈ "\x7d".data ++ (X ++ "_\x7b".data), c ∉ ts := by
    intro ts hts hlit c hc hmem
    have hs1 : ∀ x ∈ "_\x7b".data, x ∈ "_\x7b\x7d".data := by decide
    have hs2 : ∀ x ∈ "\x7d".data, x ∈ "_\x7b\x7d".data := by decide
    rcases List.mem_append.mp hc with h | h
    · exact hlit c (hs2 c h) hmem
    · rcases List.mem_append.mp h with h | h
      · exact hX.1 c h (hts c hmem)
      · exact hlit c (hs1 c h) hmem
  show html2latex.foldl applyRule _ = _
  rw [html2latex, List.foldl_append, List.foldl_append,
    tableSegment_id ['\x7b', '\x7d', '(', ')', '[', ']', '&'] (by decide)
      (hchIn _ (by decide) (by decide)) hdotsIn,
    tableSegment_id ['&'] (by decide) (hchIn _ (by decide) (by decide)) hdotsIn]
  rw [tablePost_split, List.foldl_append, List.foldl_append]
  have h1 : List.foldl applyRule ("</sub>".data ++ (X ++ "<sub>".data))
      [Rule.lit "<sub>".data "_\x7b".data] =
      ("</sub>".data ++ X) ++ "_\x7b".data := by
    simp only [List.foldl_cons, List.foldl_nil, applyRule]
    have hshape : "</sub>".data ++ (X ++ "<sub>".data) =
        ("</sub>".data ++ X) ++ "<sub>".data := by simp
    rw [hshape]
    have hut : '<' ∉ ("</sub>".data ++ X).tail := by
      show '<' ∉ "/sub>".data ++ X
      intro h
      rcases List.mem_append.mp h with h | h
      · exact absurd h (by decide)
      · exact hlt h
    rw [replaceAll_entity_skip _ (show "<sub>".data.head? = some '<' by decide)
        (by simp) hut ?_]
    · rw [replaceAll_self _ (by decide)]
    · rw [List.append_assoc]
      exact not_pfx_append (by decide) (by decide)
  rw [h1]
  have h2 : List.foldl applyRule (("</sub>".data ++ X) ++ "_\x7b".data)
      [Rule.lit "</sub>".data "\x7d".data] =
      "\x7d".data ++ (X ++ "_\x7b".data) := by
    simp only [List.foldl_cons, List.foldl_nil, applyRule]
    have hshape : ("</sub>".data ++ X) ++ "_\x7b".data =
        "</sub>".data ++ (X ++ "_\x7b".data) := by simp
    rw [hshape, replaceAll_append_match _ (by decide)]
    rw [replaceAll_of_not_ifx _
      (not_ifx_append_of (fun h => hlt (h.subset (by decide))) (by decide) ?_)]
    intro k hk hk6
    rintro ⟨hs1, _⟩
    exact hlt (hs1.subset (take_pos_head (c := '<') (by decide) hk))
  rw [h2]
  exact tableSegment_id tsPost (by decide) (hchOut _ (by decide) (by decide))
    hdotsOut

/-! ## Aligned-region conversion -/
/-- No entity pattern (head `&`, name not starting with `=`) can fire on
text whose ampersands are all alignment markers followed by `=`. -/
theorem replaceAll_ampeq_id {p : List Char} (r : List Char)
    (hp : p.head? = some '&') (hpt : p.tail ≠ []) (hpe : p.tail.head? ≠ some '=')
    {x1 x2 x3 : List Char} (h1 : '&' ∉ x1) (h2 : '&' ∉ x2) (h3 : '&' ∉ x3) :
    replaceAll p r (x1 ++ '&' :: '=' :: (x2 ++ '&' :: '=' :: x3)) =
      x1 ++ '&' :: '=' :: (x2 ++ '&' :: '=' :: x3) := by
  have hnp : ∀ y : List Char, ¬ p <+: ('&' :: '=' :: y) := by
    intro y hpre
    cases p with
    | nil => simp at hp
    | cons a pt =>
      rw [List.cons_prefix_cons] at hpre
      cases pt with
      | nil => exact hpt rfl
      | cons b pt' =>
        rw [List.cons_prefix_cons] at hpre
        exact hpe (by simp [hpre.2.1])
  rw [replaceAll_ch_skip r hp h1]
  rw [replaceAll_cons_neg r (fun hand => hnp _ hand.2)]
  have hskip2 : replaceAll p r ('=' :: (x2 ++ '&' :: '=' :: x3)) =
      ('=' :: x2) ++ replaceAll p r ('&' :: '=' :: x3) := by
    have hshape : '=' :: (x2 ++ '&' :: '=' :: x3) =
        ('=' :: x2) ++ ('&' :: '=' :: x3) := by simp
    rw [hshape, replaceAll_ch_skip r hp (by simpa using h2)]
  rw [hskip2, replaceAll_cons_neg r (fun hand => hnp _ hand.2),
    replaceAll_of_not_ifx r (fun hi => ?_)]
  · simp
  · have : '&' ∈ ('=' :: x3) := hi.subset (by
      cases p with
      | nil => simp at hp
      | cons a pt => simp at hp; simp [hp])
    simp at this
    exact h3 this

/-- Pointwise fixed rules leave a fold over the table fixed. -/
theorem foldl_id_of_fix : ∀ {rules : List Rule} {s : List Char},
    (∀ ru ∈ rules, applyRule s ru = s) → rules.foldl applyRule s = s := by
  intro rules
  induction rules with
  | nil => intro s _; rfl
  | cons ru rest ih =>
    intro s h
    simp only [List.foldl_cons, h ru (List.mem_cons_self ru rest)]
    exact ih (fun r hr => h r (List.mem_cons_of_mem ru hr))

theorem applyRule_ampeq_id {ru : Rule}
    (hcls : (ruleTrigOk tsAlign ru || ampLitOk ru) = true)
    {x1 x2 x3 : List Char}
    (h1 : '&' ∉ x1) (h2 : '&' ∉ x2) (h3 : '&' ∉ x3)
    (hch : ∀ c ∈ x1 ++ '&' :: '=' :: (x2 ++ '&' :: '=' :: x3), c ∉ tsAlign)
    (hdots : ¬ "...".data <:+: x1 ++ '&' :: '=' :: (x2 ++ '&' :: '=' :: x3)) :
    applyRule (x1 ++ '&' :: '=' :: (x2 ++ '&' :: '=' :: x3)) ru =
      x1 ++ '&' :: '=' :: (x2 ++ '&' :: '=' :: x3) := by
  rcases Bool.or_eq_true_iff.mp hcls with h | h
  · exact applyRule_id (untriggered_of_trigOk h hch hdots)
  · cases ru with
    | lit p r =>
      simp only [ampLitOk, Bool.and_eq_true, beq_iff_eq, Bool.not_eq_true',
        beq_eq_false_iff_ne, ne_eq, Bool.not_eq_true] at h
      refine replaceAll_ampeq_id r h.1.1 ?_ ?_ h1 h2 h3
      · intro hnil
        rw [hnil] at h
        simp at h
      · intro heq
        rcases h with ⟨⟨_, _⟩, h3'⟩
        rw [heq] at h3'
        simp at h3'
    | frac => simp [ampLitOk] at h
    | sums e c => simp [ampLitOk] at h
    | bold o c => simp [ampLitOk] at h
    | radic => simp [ampLitOk] at h

theorem convertFragmentL_ampeq {x1 x2 x3 : List Char}
    (h1 : '&' ∉ x1) (h2 : '&' ∉ x2) (h3 : '&' ∉ x3)
    (hch : ∀ c ∈ x1 ++ '&' :: '=' :: (x2 ++ '&' :: '=' :: x3), c ∉ tsAlign)
    (hdots : ¬ "...".data <:+: x1 ++ '&' :: '=' :: (x2 ++ '&' :: '=' :: x3)) :
    convertFragmentL (x1 ++ '&' :: '=' :: (x2 ++ '&' :: '=' :: x3)) =
      x1 ++ '&' :: '=' :: (x2 ++ '&' :: '=' :: x3) := by
  have hcls : ∀ ru ∈ html2latex, (ruleTrigOk tsAlign ru || ampLitOk ru) = true := by
    decide
  exact foldl_id_of_fix (fun ru hru =>
    applyRule_ampeq_id (hcls ru hru) h1 h2 h3 hch hdots)

theorem dropWhile_eq_self_of_head {s : List Char} {c : Char}
    (hc : s.head? = some c) (hw : isWs c = false) : s.dropWhile isWs = s := by
  cases s with
  | nil => rfl
  | cons a t =>
    have : a = c := by simpa using hc
    exact List.dropWhile_cons_of_neg (by simp [this, hw])

theorem trim_eq_of {s : List Char} (h1 : s.dropWhile isWs = s)
    (h2 : s.reverse.dropWhile isWs = s.reverse) : trim s = s := by
  unfold trim
  rw [h1, h2, List.reverse_reverse]

theorem spanTail_close : spanTail "</span>".data = some [] := by decide

theorem spanTail_fail_of {w : List Char} (hlt : '<' ∉ w)
    (hnw : ∃ c ∈ w, isWs c = false) :
    spanTail (w ++ "</span>".data) = none := by
  unfold spanTail
  rw [if_neg]
  intro hpre
  have hne : w.dropWhile isWs ≠ [] := by
    intro hnil
    obtain ⟨c, hc, hcw⟩ := hnw
    have := List.dropWhile_eq_nil_iff.mp hnil c hc
    simp [hcw] at this
  rw [List.dropWhile_append,
    if_neg (by simpa [List.isEmpty_iff] using hne)] at hpre
  cases hh : w.dropWhile isWs with
  | nil => exact hne hh
  | cons d dt =>
    rw [hh, List.cons_append, List.cons_prefix_cons] at hpre
    have hd : d ∈ w := by
      have hmem : d ∈ w.dropWhile isWs := hh ▸ List.mem_cons_self d dt
      exact (List.dropWhile_suffix isWs).subset hmem
    rw [← hpre.1] at hd
    exact hlt hd

theorem spanMatchAt_eval {cls : List Char} {conv : List Char → List Char}
    {inner : List Char} {c0 : Char} {it : List Char}
    (hinner : inner = c0 :: it) (hc0 : isWs c0 = false)
    (hfail : ∀ k, k < inner.length →
      spanTail (inner.drop k ++ "</span>".data) = none) :
    spanMatchAt cls conv
      (("<span class=\"".data ++ cls ++ "\">".data) ++ (inner ++ "</span>".data)) =
      some (conv inner, []) := by
  unfold spanMatchAt
  rw [if_pos (List.prefix_append _ _)]
  simp only [List.drop_left]
  have htw : ((inner ++ "</span>".data).takeWhile isWs) = [] := by
    rw [hinner, List.cons_append]
    exact List.takeWhile_cons_of_neg (by simp [hc0])
  rw [htw]
  simp only [List.length_nil, List.drop_zero]
  rw [lazyCap_eval hfail spanTail_close]
  rfl

theorem alignedBody_eval {a1 b1 a2 b2 : List Char} (h : AlignedOk a1 b1 a2 b2) :
    convertAlignedRepl "=".data "=".data
      ((a1 ++ '=' :: b1) ++ '\n' :: (a2 ++ '=' :: b2)) =
    "\\[ \\begin\x7balign*\x7d ".data ++
      ((a1 ++ '&' :: '=' :: b1) ++ (" \\\\ \n".data ++ (a2 ++ '&' :: '=' :: b2)))
      ++ " \\end\x7balign*\x7d \\]".data := by
  have hof : ∀ {D : List Char}, (∀ c ∈ D, c ∉ alignBad) →
      ∀ {x : Char}, x ∈ alignBad → x ∉ D := by
    intro D hD x hx hmem
    exact hD x hmem hx
  have hlt1 : '<' ∉ a1 := hof h.c1 (by decide)
  have hlt2 : '<' ∉ b1 := hof h.c2 (by decide)
  have hlt3 : '<' ∉ a2 := hof h.c3 (by decide)
  have hlt4 : '<' ∉ b2 := hof h.c4 (by decide)
  have heq1 : '=' ∉ a1 := hof h.c1 (by decide)
  have heq2 : '=' ∉ b1 := hof h.c2 (by decide)
  have heq3 : '=' ∉ a2 := hof h.c3 (by decide)
  have heq4 : '=' ∉ b2 := hof h.c4 (by decide)
  have hnl1 : '\n' ∉ a1 := hof h.c1 (by decide)
  have hnl2 : '\n' ∉ b1 := hof h.c2 (by decide)
  have hnl3 : '\n' ∉ a2 := hof h.c3 (by decide)
  have hnl4 : '\n' ∉ b2 := hof h.c4 (by decide)
  have hamp1 : '&' ∉ a1 := hof h.c1 (by decide)
  have hamp2 : '&' ∉ b1 := hof h.c2 (by decide)
  have hamp3 : '&' ∉ a2 := hof h.c3 (by decide)
  have hamp4 : '&' ∉ b2 := hof h.c4 (by decide)
  have hltInner : '<' ∉ (a1 ++ '=' :: b1) ++ '\n' :: (a2 ++ '=' :: b2) := by
    intro hm
    rcases List.mem_append.mp hm with hm | hm
    · rcases List.mem_append.mp hm with hm | hm
      · exact hlt1 hm
      · rcases List.mem_cons.mp hm with hm | hm
        · exact absurd hm (by decide)
        · exact hlt2 hm
    · rcases List.mem_cons.mp hm with hm | hm
      · exact absurd hm (by decide)
      · rcases List.mem_append.mp hm with hm | hm
        · exact hlt3 hm
        · rcases List.mem_cons.mp hm with hm | hm
          · exact absurd hm (by decide)
          · exact hlt4 hm
  unfold convertAlignedRepl
  rw [replaceAll_of_not_mem _ (by decide : '<' ∈ "<pre>".data) hltInner,
    replaceAll_of_not_mem _ (by decide : '<' ∈ "</pre>".data) hltInner]
  -- the '=' → '&=' replacement
  have hshape1 : (a1 ++ '=' :: b1) ++ '\n' :: (a2 ++ '=' :: b2) =
      a1 ++ ('=' :: (b1 ++ '\n' :: (a2 ++ '=' :: b2))) := by simp
  have heqrep : replaceAll "=".data ('&' :: "=".data)
      ((a1 ++ '=' :: b1) ++ '\n' :: (a2 ++ '=' :: b2)) =
      (a1 ++ '&' :: '=' :: b1) ++ '\n' :: (a2 ++ '&' :: '=' :: b2) := by
    rw [hshape1, replaceAll_ch_skip _ (by decide : "=".data.head? = some '=') heq1]
    rw [show ('=' :: (b1 ++ '\n' :: (a2 ++ '=' :: b2))) =
      "=".data ++ (b1 ++ '\n' :: (a2 ++ '=' :: b2)) from rfl]
    rw [replaceAll_append_match _ (by decide)]
    rw [replaceAll_ch_skip _ (by decide : "=".data.head? = some '=') heq2]
    rw [replaceAll_cons_neg _ (fun hand =>
      not_pfx_of_head_ch (by decide : "=".data.head? = some '=') (by decide)
        hand.2)]
    rw [replaceAll_ch_skip _ (by decide : "=".data.head? = some '=') heq3]
    rw [show ('=' :: b2) = "=".data ++ b2 from rfl,
      replaceAll_append_match _ (by decide),
      replaceAll_of_not_mem _ (by decide : '=' ∈ "=".data) heq4]
    simp
  rw [heqrep]
  -- strip is the identity
  obtain ⟨ha1h, ha1t, ha1⟩ : ∃ c t, a1 = c :: t := by
    cases a1 with
    | nil => exact absurd rfl h.a1ne
    | cons c t => exact ⟨c, t, rfl⟩
  obtain ⟨b2i, lc2, hb2⟩ : ∃ L b, b2 = L ++ [b] := by
    rcases List.eq_nil_or_concat b2 with hnil | ⟨L, b, hLb⟩
    · exact absurd hnil h.b2ne
    · exact ⟨L, b, by simpa [List.concat_eq_append] using hLb⟩
  have hlc2 : isWs lc2 = false :=
    h.b2last lc2 (by rw [hb2]; exact List.getLast?_concat b2i)
  have htrim : trim ((a1 ++ '&' :: '=' :: b1) ++ '\n' :: (a2 ++ '&' :: '=' :: b2)) =
      (a1 ++ '&' :: '=' :: b1) ++ '\n' :: (a2 ++ '&' :: '=' :: b2) := by
    refine trim_eq_of
      (dropWhile_eq_self_of_head (c := ha1h) (by rw [ha1]; rfl)
        (h.a1hd ha1h (by rw [ha1]; rfl))) ?_
    have hsh : (a1 ++ '&' :: '=' :: b1) ++ '\n' :: (a2 ++ '&' :: '=' :: b2) =
        ((a1 ++ '&' :: '=' :: b1) ++ '\n' :: (a2 ++ '&' :: '=' :: b2i)) ++ [lc2] := by
      rw [hb2]; simp
    rw [hsh]
    have hrev : (((a1 ++ '&' :: '=' :: b1) ++ '\n' :: (a2 ++ '&' :: '=' :: b2i))
        ++ [lc2]).reverse =
        lc2 :: ((a1 ++ '&' :: '=' :: b1) ++ '\n' :: (a2 ++ '&' :: '=' :: b2i)).reverse := by
      simp
    rw [hrev]
    exact List.dropWhile_cons_of_neg (by simp [hlc2])
  rw [htrim]
  -- the newline → row-break replacement
  have hw1nl : '\n' ∉ a1 ++ '&' :: '=' :: b1 := by
    intro hm
    rcases List.mem_append.mp hm with hm | hm
    · exact hnl1 hm
    · rcases List.mem_cons.mp hm with hm | hm
      · exact absurd hm (by decide)
      · rcases List.mem_cons.mp hm with hm | hm
        · exact absurd hm (by decide)
        · exact hnl2 hm
  have hznl : '\n' ∉ a2 ++ '&' :: '=' :: b2 := by
    intro hm
    rcases List.mem_append.mp hm with hm | hm
    · exact hnl3 hm
    · rcases List.mem_cons.mp hm with hm | hm
      · exact absurd hm (by decide)
      · rcases List.mem_cons.mp hm with hm | hm
        · exact absurd hm (by decide)
        · exact hnl4 hm
  have hnlrep : replaceAll "\n".data " \\\\ \n".data
      ((a1 ++ '&' :: '=' :: b1) ++ '\n' :: (a2 ++ '&' :: '=' :: b2)) =
      (a1 ++ '&' :: '=' :: b1) ++ (" \\\\ \n".data ++ (a2 ++ '&' :: '=' :: b2)) := by
    rw [replaceAll_ch_skip _ (by decide : "\n".data.head? = some '\n') hw1nl]
    rw [show ('\n' :: (a2 ++ '&' :: '=' :: b2)) =
      "\n".data ++ (a2 ++ '&' :: '=' :: b2) from rfl]
    rw [replaceAll_append_match _ (by decide),
      replaceAll_of_not_mem _ (by decide : '\n' ∈ "\n".data) hznl]
  rw [hnlrep]
  -- the Symbol Table leaves the marked content unchanged
  have hform : (a1 ++ '&' :: '=' :: b1) ++ (" \\\\ \n".data ++ (a2 ++ '&' :: '=' :: b2)) =
      a1 ++ '&' :: '=' :: (((b1 ++ " \\\\ \n".data) ++ a2) ++ '&' :: '=' :: b2) := by
    simp
  have hx2 : '&' ∉ (b1 ++ " \\\\ \n".data) ++ a2 := by
    intro hm
    rcases List.mem_append.mp hm with hm | hm
    · rcases List.mem_append.mp hm with hm | hm
      · exact hamp2 hm
      · exact absurd hm (by decide)
    · exact hamp3 hm
  have hsubAlign : ∀ x ∈ tsAlign, x ∈ alignBad := by decide
  have hch : ∀ c ∈ a1 ++ '&' :: '=' ::
      (((b1 ++ " \\\\ \n".data) ++ a2) ++ '&' :: '=' :: b2), c ∉ tsAlign := by
    intro c hm hmem
    rcases List.mem_append.mp hm with hm | hm
    · exact h.c1 c hm (hsubAlign c hmem)
    · rcases List.mem_cons.mp hm with hm | hm
      · subst hm; exact absurd hmem (by decide)
      · rcases List.mem_cons.mp hm with hm | hm
        · subst hm; exact absurd hmem (by decide)
        · rcases List.mem_append.mp hm with hm | hm
          · rcases List.mem_append.mp hm with hm | hm
            · rcases List.mem_append.mp hm with hm | hm
              · exact h.c2 c hm (hsubAlign c hmem)
              · exact (show ∀ x ∈ " \\\\ \n".data, x ∉ tsAlign by decide)
                  c hm hmem
            · exact h.c3 c hm (hsubAlign c hmem)
          · rcases List.mem_cons.mp hm with hm | hm
            · subst hm; exact absurd hmem (by decide)
            · rcases List.mem_cons.mp hm with hm | hm
              · subst hm; exact absurd hmem (by decide)
              · exact h.c4 c hm (hsubAlign c hmem)
  have hdots : ¬ "...".data <:+: a1 ++ '&' :: '=' ::
      (((b1 ++ " \\\\ \n".data) ++ a2) ++ '&' :: '=' :: b2) := by
    refine not_dots_ifx ?_
    intro hm
    exact hch '.' hm (by decide)
  rw [hform, convertFragmentL_ampeq hamp1 hx2 hamp4 hch hdots, ← hform]

theorem eqAligned_eval {a1 b1 a2 b2 : List Char} (h : AlignedOk a1 b1 a2 b2) :
    eqAlignedPass ("<span class=\"latex-eq-aligned\">".data ++
      (((a1 ++ '=' :: b1) ++ '\n' :: (a2 ++ '=' :: b2)) ++ "</span>".data)) =
    "\\[ \\begin\x7balign*\x7d ".data ++
      ((a1 ++ '&' :: '=' :: b1) ++ (" \\\\ \n".data ++ (a2 ++ '&' :: '=' :: b2)))
      ++ " \\end\x7balign*\x7d \\]".data := by
  have hofe : ∀ {D : List Char}, (∀ c ∈ D, c ∉ alignBad) → '<' ∉ D := by
    intro D hD hmem
    exact hD '<' hmem (by decide)
  have hltInner : '<' ∉ (a1 ++ '=' :: b1) ++ '\n' :: (a2 ++ '=' :: b2) := by
    intro hm
    rcases List.mem_append.mp hm with hm | hm
    · rcases List.mem_append.mp hm with hm | hm
      · exact hofe h.c1 hm
      · rcases List.mem_cons.mp hm with hm | hm
        · exact absurd hm (by decide)
        · exact hofe h.c2 hm
    · rcases List.mem_cons.mp hm with hm | hm
      · exact absurd hm (by decide)
      · rcases List.mem_append.mp hm with hm | hm
        · exact hofe h.c3 hm
        · rcases List.mem_cons.mp hm with hm | hm
          · exact absurd hm (by decide)
          · exact hofe h.c4 hm
  obtain ⟨c0, it, ha1⟩ : ∃ c0 it, a1 = c0 :: it := by
    cases ha : a1 with
    | nil => exact absurd ha h.a1ne
    | cons x xs => exact ⟨x, xs, rfl⟩
  obtain ⟨b2i, lc2, hb2⟩ : ∃ ys y, b2 = ys ++ [y] := by
    obtain ⟨ys, y, hy⟩ := (List.eq_nil_or_concat b2).resolve_left h.b2ne
    exact ⟨ys, y, by simpa [List.concat_eq_append] using hy⟩
  have hlc2 : isWs lc2 = false :=
    h.b2last lc2 (by rw [hb2]; exact List.getLast?_concat _)
  have hsplit : (a1 ++ '=' :: b1) ++ '\n' :: (a2 ++ '=' :: b2)
      = ((a1 ++ '=' :: b1) ++ '\n' :: (a2 ++ '=' :: b2i)) ++ [lc2] := by
    rw [hb2]; simp
  have hfail : ∀ k, k < ((a1 ++ '=' :: b1) ++ '\n' :: (a2 ++ '=' :: b2)).length →
      spanTail (((a1 ++ '=' :: b1) ++ '\n' :: (a2 ++ '=' :: b2)).drop k
        ++ "</span>".data) = none := by
    intro k hk
    have hkle : k ≤ ((a1 ++ '=' :: b1) ++ '\n' :: (a2 ++ '=' :: b2i)).length := by
      rw [hsplit] at hk
      simp only [List.length_append, List.length_cons, List.length_nil] at hk ⊢
      omega
    have hmem : lc2 ∈ ((a1 ++ '=' :: b1) ++ '\n' :: (a2 ++ '=' :: b2)).drop k := by
      rw [hsplit, List.drop_append_of_le_length hkle]
      exact List.mem_append.mpr (Or.inr (List.mem_singleton.mpr rfl))
    exact spanTail_fail_of
      (fun hm => hltInner (List.drop_subset _ _ hm))
      ⟨lc2, hmem, hlc2⟩
  have hinner : (a1 ++ '=' :: b1) ++ '\n' :: (a2 ++ '=' :: b2)
      = c0 :: ((it ++ '=' :: b1) ++ '\n' :: (a2 ++ '=' :: b2)) := by
    rw [ha1]; rfl
  have hc0 : isWs c0 = false := h.a1hd c0 (by rw [ha1]; rfl)
  have hf := @spanMatchAt_eval "latex-eq-aligned".data
    (convertAlignedRepl "=".data "=".data)
    ((a1 ++ '=' :: b1) ++ '\n' :: (a2 ++ '=' :: b2)) c0
    ((it ++ '=' :: b1) ++ '\n' :: (a2 ++ '=' :: b2)) hinner hc0 hfail
  have htrig : ("<span class=\"".data ++ "latex-eq-aligned".data ++ "\">".data)
      = "<span class=\"latex-eq-aligned\">".data := by decide
  rw [htrig] at hf
  have hcons : "<span class=\"latex-eq-aligned\">".data
      = '<' :: "span class=\"latex-eq-aligned\">".data := by decide
  have hfc : spanMatchAt "latex-eq-aligned".data
      (convertAlignedRepl "=".data "=".data)
      ('<' :: ("span class=\"latex-eq-aligned\">".data ++
        (((a1 ++ '=' :: b1) ++ '\n' :: (a2 ++ '=' :: b2)) ++ "</span>".data)))
      = some (convertAlignedRepl "=".data "=".data
          ((a1 ++ '=' :: b1) ++ '\n' :: (a2 ++ '=' :: b2)), []) := by
    rw [← List.cons_append, ← hcons]
    exact hf
  unfold eqAlignedPass
  rw [hcons, List.cons_append, subDriver_cons_some hfc (by simp), subDriver_nil,
    List.append_nil]
  exact alignedBody_eval h

theorem dropWhile_head_false {p : Char → Bool} :
    ∀ {l : List Char} {a : Char} {t : List Char},
      List.dropWhile p l = a :: t → p a = false := by
  intro l
  induction l with
  | nil => intro a t h; simp at h
  | cons c l' ih =>
    intro a t h
    rw [List.dropWhile_cons] at h
    split at h
    · exact ih h
    next hc =>
      injection h with h1 _
      subst h1
      simpa using hc

theorem commentTail_fail {Q : List Char} (hQ : PayloadOk Q)
    {k : Nat} (hk : k < Q.length) :
    commentTail (Q.drop k ++ "\x7d -->".data) = none := by
  have hdne : Q.drop k ≠ [] := by
    intro h
    have := congrArg List.length h
    simp at this
    omega
  obtain ⟨ys, y, hy⟩ : ∃ ys y, Q.drop k = ys ++ [y] := by
    obtain ⟨ys, y, h⟩ := (List.eq_nil_or_concat (Q.drop k)).resolve_left hdne
    exact ⟨ys, y, by simpa [List.concat_eq_append] using h⟩
  have hyQ : Q.getLast? = some y := by
    conv_lhs => rw [← List.take_append_drop k Q, hy, ← List.append_assoc]
    exact List.getLast?_concat _
  have hyws : isWs y = false := hQ.lastc y hyQ
  have hdwne : (Q.drop k).dropWhile isWs ≠ [] := by
    intro hnil
    have := List.dropWhile_eq_nil_iff.mp hnil y
      (by rw [hy]; exact List.mem_append.mpr (Or.inr (List.mem_singleton.mpr rfl)))
    simp [hyws] at this
  obtain ⟨e, d', hdw⟩ : ∃ e d', (Q.drop k).dropWhile isWs = e :: d' := by
    cases hc : (Q.drop k).dropWhile isWs with
    | nil => exact absurd hc hdwne
    | cons a t => exact ⟨a, t, rfl⟩
  have heQ : e ∈ Q := by
    have h1 : e ∈ (Q.drop k).dropWhile isWs := hdw ▸ List.mem_cons_self e d'
    exact List.drop_subset k Q ((List.dropWhile_suffix isWs).subset h1)
  have hscr : (Q.drop k ++ "\x7d -->".data).drop
      (((Q.drop k ++ "\x7d -->".data).takeWhile isWs).length)
      = e :: (d' ++ "\x7d -->".data) := by
    rw [drop_of_append_eq (List.takeWhile_append_dropWhile isWs _),
      List.dropWhile_append, if_neg (by simpa [List.isEmpty_iff] using hdwne),
      hdw, List.cons_append]
  unfold commentTail
  split
  next v heq =>
    rw [hscr] at heq
    injection heq with h1 _
    exact absurd heQ (h1 ▸ hQ.nobrace)
  next =>
    unfold arrowTailAt
    rw [if_neg]
    intro hand
    obtain ⟨hm1, hpre⟩ := hand
    have hdropm : (Q.drop k ++ "\x7d -->".data).drop
        (((Q.drop k ++ "\x7d -->".data).takeWhile isWs).length)
        = e :: (d' ++ "\x7d -->".data) := hscr
    obtain ⟨w, hw⟩ := hpre
    have h1 : ((Q.drop k ++ "\x7d -->".data).drop
        ((((Q.drop k ++ "\x7d -->".data).takeWhile isWs).length) - 1)).drop 1
        = "-->".data ++ w := by
      rw [← hw]; rfl
    rw [List.drop_drop] at h1
    have h2 : ((((Q.drop k ++ "\x7d -->".data).takeWhile isWs).length) - 1) + 1
        = (((Q.drop k ++ "\x7d -->".data).takeWhile isWs).length) := by omega
    rw [h2, hdropm] at h1
    injection h1 with h3 _
    exact absurd heQ (h3 ▸ hQ.nodash)

theorem payloadCap_eval {P : List Char} (hP : PayloadOk P) :
    payloadCap (' ' :: (P ++ "\x7d -->".data)) = some (P, []) := by
  obtain ⟨c0, P', hP0⟩ : ∃ c0 P', P = c0 :: P' := by
    cases hc : P with
    | nil => exact absurd hc hP.ne
    | cons a t => exact ⟨a, t, rfl⟩
  have hc0 : isWs c0 = false := hP.headc c0 (by rw [hP0]; rfl)
  have htw : (' ' :: (P ++ "\x7d -->".data)).takeWhile isWs = [' '] := by
    rw [List.takeWhile_cons_of_pos (by decide), hP0, List.cons_append,
      List.takeWhile_cons_of_neg (by simp [hc0])]
  have hlz : lazyCap commentTail (P ++ "\x7d -->".data) = some (P, []) :=
    lazyCap_eval (fun k hk => commentTail_fail hP hk) (by decide)
  unfold payloadCap
  rw [htw]
  simp only [List.length_cons, List.length_nil, List.drop_succ_cons,
    List.drop_zero, hlz]

theorem literalBody_wrapped {P : List Char} (hP : PayloadOk P) :
    literalBody (" \x7b@literal ".data ++ (P ++ "\x7d -->".data))
      = some (P, []) := by
  have htw : (" \x7b@literal ".data ++ (P ++ "\x7d -->".data)).takeWhile isWs
      = [' '] := by
    rw [show " \x7b@literal ".data ++ (P ++ "\x7d -->".data)
        = ' ' :: ("\x7b@literal ".data ++ (P ++ "\x7d -->".data)) from rfl,
      List.takeWhile_cons_of_pos (by decide),
      show "\x7b@literal ".data ++ (P ++ "\x7d -->".data)
        = '\x7b' :: ("@literal ".data ++ (P ++ "\x7d -->".data)) from rfl,
      List.takeWhile_cons_of_neg (by decide)]
  have hdrop : (" \x7b@literal ".data ++ (P ++ "\x7d -->".data)).drop 1
      = "\x7b@literal ".data ++ (P ++ "\x7d -->".data) := rfl
  unfold literalBody
  rw [htw]
  simp only [List.length_cons, List.length_nil, hdrop]
  rw [if_pos (by
    show "\x7b@literal".data <+: "\x7b@literal ".data ++ (P ++ "\x7d -->".data)
    have h9 : "\x7b@literal ".data = "\x7b@literal".data ++ " ".data := by decide
    rw [h9, List.append_assoc]
    exact List.prefix_append _ _)]
  rw [show ("\x7b@literal ".data ++ (P ++ "\x7d -->".data)).drop 9
      = ' ' :: (P ++ "\x7d -->".data) from rfl]
  rw [payloadCap_eval hP]

theorem literalBody_bare {Q : List Char} (hQ : PayloadOk Q)
    (hnw : ¬ "\x7b@literal".data <+: Q ++ "\x7d -->".data) :
    literalBody (' ' :: (Q ++ "\x7d -->".data)) = some (Q, []) := by
  obtain ⟨c0, Q', hQ0⟩ : ∃ c0 Q', Q = c0 :: Q' := by
    cases hc : Q with
    | nil => exact absurd hc hQ.ne
    | cons a t => exact ⟨a, t, rfl⟩
  have hc0 : isWs c0 = false := hQ.headc c0 (by rw [hQ0]; rfl)
  have htw : (' ' :: (Q ++ "\x7d -->".data)).takeWhile isWs = [' '] := by
    rw [List.takeWhile_cons_of_pos (by decide), hQ0, List.cons_append,
      List.takeWhile_cons_of_neg (by simp [hc0])]
  unfold literalBody
  rw [htw]
  simp only [List.length_cons, List.length_nil, List.drop_succ_cons,
    List.drop_zero]
  rw [if_neg hnw]
  exact payloadCap_eval hQ

theorem spanCloseTail_none {v : List Char} (h : ¬ "</span>".data <+: v) :
    spanCloseTail v = none := by
  unfold spanCloseTail
  rw [if_neg h]

theorem spanCloseTail_succ (B : List Char) :
    spanCloseTail ("</span><!-- LATEX:".data ++ B) = literalBody B := by
  have hsp : "</span><!-- LATEX:".data
      = "</span>".data ++ "<!-- LATEX:".data := by decide
  unfold spanCloseTail
  rw [hsp, List.append_assoc, if_pos (List.prefix_append _ _)]
  have hd7 : ("</span>".data ++ ("<!-- LATEX:".data ++ B)).drop 7
      = "<!-- LATEX:".data ++ B := by
    rw [show (7 : Nat) = ("</span>".data).length from by decide]
    exact drop_of_append_eq rfl
  have hdw : ("<!-- LATEX:".data ++ B).dropWhile isWs
      = "<!-- LATEX:".data ++ B := by
    rw [show "<!-- LATEX:".data ++ B = '<' :: ("!-- LATEX:".data ++ B) from rfl]
    exact List.dropWhile_cons_of_neg (by decide)
  simp only [hd7, hdw]
  rw [if_pos (List.prefix_append _ _)]
  rw [show ("<!-- LATEX:".data ++ B).drop 11 = B from by
    rw [show (11 : Nat) = ("<!-- LATEX:".data).length from by decide]
    exact drop_of_append_eq rfl]

theorem literalMatchAt_eq (s : List Char) :
    literalMatchAt s =
      if "<span class=\"latex-replaceable\">".data <+: s then
        (lazyCap spanCloseTail (s.drop 32)).map (fun g => (g.2.1, g.2.2))
      else none := rfl

theorem literalMatchAt_eval {I B P R : List Char} (hI : '<' ∉ I)
    (hB : literalBody B = some (P, R)) :
    literalMatchAt ("<span class=\"latex-replaceable\">".data
        ++ (I ++ ("</span><!-- LATEX:".data ++ B))) = some (P, R) := by
  rw [literalMatchAt_eq, if_pos (List.prefix_append _ _)]
  have hd : ("<span class=\"latex-replaceable\">".data
      ++ (I ++ ("</span><!-- LATEX:".data ++ B))).drop 32
      = I ++ ("</span><!-- LATEX:".data ++ B) := by
    rw [show (32 : Nat)
        = ("<span class=\"latex-replaceable\">".data).length from by decide]
    exact drop_of_append_eq rfl
  rw [hd]
  have hfail : ∀ k, k < I.length →
      spanCloseTail (I.drop k ++ ("</span><!-- LATEX:".data ++ B)) = none := by
    intro k hk
    refine spanCloseTail_none ?_
    have hnp := not_pfx_ch_drop (p := "</span>".data)
      ("</span><!-- LATEX:".data ++ B) rfl hI hk
    rw [List.drop_append_of_le_length (le_of_lt hk)] at hnp
    exact hnp
  rw [lazyCap_eval hfail (by rw [spanCloseTail_succ, hB])]
  rfl

theorem literalPass_single {I B P : List Char} (hI : '<' ∉ I)
    (hB : literalBody B = some (P, [])) :
    literalPass ("<span class=\"latex-replaceable\">".data
      ++ (I ++ ("</span><!-- LATEX:".data ++ B))) = P := by
  have hm := literalMatchAt_eval hI hB
  have hcons : "<span class=\"latex-replaceable\">".data
      = '<' :: "span class=\"latex-replaceable\">".data := rfl
  have hfc : literalMatchAt ('<' :: ("span class=\"latex-replaceable\">".data
      ++ (I ++ ("</span><!-- LATEX:".data ++ B)))) = some (P, []) := by
    rw [← List.cons_append, ← hcons]
    exact hm
  unfold literalPass
  rw [hcons, List.cons_append, subDriver_cons_some hfc (by simp),
    subDriver_nil, List.append_nil]

theorem findHeadEnd_append : ∀ {s pre post : List Char},
    findHeadEnd s = some (pre, post) → s = pre ++ post := by
  intro s
  induction s with
  | nil => intro pre post h; simp [findHeadEnd] at h
  | cons c t ih =>
    intro pre post h
    rw [findHeadEnd] at h
    cases hm : headMatchLen (c :: t) with
    | some n =>
      rw [hm] at h
      injection h with h1
      injection h1 with h2 h3
      rw [← h2, ← h3, List.take_append_drop]
    | none =>
      rw [hm] at h
      cases hf : findHeadEnd t with
      | none => rw [hf] at h; simp at h
      | some pr =>
        rw [hf] at h
        injection h with h1
        injection h1 with h2 h3
        rw [← h2, ← h3, List.cons_append, ← ih hf]

theorem findHeadEnd_exists : ∀ {s : List Char} {k n : Nat},
    headMatchLen (s.drop k) = some n → ∃ pr, findHeadEnd s = some pr := by
  intro s
  induction s with
  | nil =>
    intro k n h
    rw [List.drop_nil,
      show headMatchLen ([] : List Char) = none from rfl] at h
    exact Option.noConfusion h
  | cons c t ih =>
    intro k n h
    cases hm : headMatchLen (c :: t) with
    | some m => exact ⟨_, by rw [findHeadEnd, hm]⟩
    | none =>
      cases k with
      | zero => rw [List.drop_zero] at h; exact absurd h (by rw [hm]; simp)
      | succ k' =>
        rw [List.drop_succ_cons] at h
        obtain ⟨pr, hpr⟩ := ih h
        exact ⟨(c :: pr.1, pr.2), by rw [findHeadEnd, hm, hpr]; rfl⟩

theorem injectMathjax_some {s pre post : List Char}
    (h : findHeadEnd s = some (pre, post)) :
    injectMathjax s = pre ++ (("\n    ".data ++ mathjaxScript) ++ post) := by
  unfold injectMathjax
  rw [h]
  simp [List.append_assoc]

theorem injectMathjax_none {s : List Char} (h : findHeadEnd s = none) :
    injectMathjax s = s := by
  unfold injectMathjax
  rw [h]

theorem findHeadEnd_head (v : List Char) :
    findHeadEnd ("<head>".data ++ v) = some ("<head>".data, v) := by
  have h1 : findHeadEnd ("<head>".data ++ v)
      = some (("<head>".data ++ v).take 6, ("<head>".data ++ v).drop 6) := rfl
  rw [h1, show (6 : Nat) = ("<head>".data).length from rfl,
    List.take_left, List.drop_left]

theorem not_take_sfx {m w : List Char} {c : Char} (hw : w.getLast? = some c)
    (hno : c ∉ m.take (m.length - 1)) {k : Nat} (h0 : 0 < k)
    (hk : k < m.length) : ¬ m.take k <:+ w := by
  intro hsfx
  have hne : m.take k ≠ [] := by
    intro h
    have hlen : (m.take k).length = 0 := by rw [h]; rfl
    rw [List.length_take] at hlen
    omega
  obtain ⟨ys, y, hy⟩ : ∃ ys y, m.take k = ys ++ [y] := by
    obtain ⟨ys, y, h⟩ := (List.eq_nil_or_concat (m.take k)).resolve_left hne
    exact ⟨ys, y, by simpa [List.concat_eq_append] using h⟩
  obtain ⟨a, ha⟩ := hsfx
  have h1 : w.getLast? = some y := by
    rw [← ha, hy, ← List.append_assoc]
    exact List.getLast?_concat _
  have hcy : y = c := by
    rw [hw] at h1
    injection h1 with h2
    exact h2.symm
  have hmem : y ∈ m.take k := by
    rw [hy]
    exact List.mem_append.mpr (Or.inr (List.mem_singleton.mpr rfl))
  have htt : m.take k = (m.take (m.length - 1)).take k := by
    rw [List.take_take, min_eq_left (by omega)]
  rw [htt] at hmem
  exact hno (hcy ▸ List.take_subset k _ hmem)

theorem not_drop_pfx {m w : List Char} {c : Char} (hw : w.head? = some c)
    (hno : c ∉ m) {k : Nat} (hk : k < m.length) : ¬ m.drop k <+: w := by
  intro hp
  have hdne : m.drop k ≠ [] := by
    intro h
    have hlen : (m.drop k).length = 0 := by rw [h]; rfl
    rw [List.length_drop] at hlen
    omega
  obtain ⟨e, d', hdk⟩ : ∃ e d', m.drop k = e :: d' := by
    cases hc : m.drop k with
    | nil => exact absurd hc hdne
    | cons a t => exact ⟨a, t, rfl⟩
  have he : e ∈ m := List.drop_subset k m (hdk ▸ List.mem_cons_self e d')
  cases w with
  | nil => simp at hw
  | cons c0 t =>
    have hc0 : c0 = c := by simpa using hw
    rw [hdk] at hp
    have h3 := (List.cons_prefix_cons.mp hp).1
    exact hno (by rw [← hc0, ← h3]; exact he)

theorem marker_not_in_inject {m s : List Char}
    (hm : ¬ m <:+: s) (hnl : '\n' ∉ m)
    (hgt : '>' ∉ m.take (m.length - 1))
    (hins : ¬ m <:+: ("\n    ".data ++ mathjaxScript)) :
    ¬ m <:+: injectMathjax s := by
  cases hfe : findHeadEnd s with
  | none => rw [injectMathjax_none hfe]; exact hm
  | some pr =>
    obtain ⟨pre, post⟩ := pr
    have hsp : s = pre ++ post := findHeadEnd_append hfe
    rw [injectMathjax_some hfe]
    refine not_ifx_append_of ?_ ?_ ?_
    · intro hi
      exact hm (hsp ▸ hi.trans (List.prefix_append pre post).isInfix)
    · refine not_ifx_append_of hins ?_ ?_
      · intro hi
        exact hm (hsp ▸ hi.trans (List.suffix_append pre post).isInfix)
      · intro k h0 hk hand
        exact not_take_sfx (by decide) hgt h0 hk hand.1
    · intro k h0 hk hand
      exact not_drop_pfx
        (show (("\n    ".data ++ mathjaxScript) ++ post).head? = some '\n'
          from rfl) hnl hk hand.2

theorem marker_not_in_headdoc {m v : List Char} (hv : '<' ∉ v)
    (hlt : '<' ∈ m) (hhead : ¬ m <:+: "<head>".data)
    (hgt : '>' ∉ m.take (m.length - 1)) :
    ¬ m <:+: "<head>".data ++ v := by
  refine not_ifx_append_of hhead ?_ ?_
  · intro hi
    exact hv (hi.subset hlt)
  · intro k h0 hk hand
    exact not_take_sfx (by decide) hgt h0 hk hand.1

theorem spanPass_id {cls : List Char} {conv : List Char → List Char}
    {s : List Char}
    (h : ¬ ("<span class=\"".data ++ cls ++ "\">".data) <:+: s) :
    subDriver (spanMatchAt cls conv) s = s :=
  subDriver_of_none
    (fun _ hu => spanMatchAt_none (fun hp => h (ifx_of_pfx_of_sfx hp hu)))

theorem literalPass_id {s : List Char}
    (h : ¬ "<span class=\"latex-replaceable\">".data <:+: s) :
    literalPass s = s :=
  subDriver_of_none
    (fun _ hu => literalMatchAt_none (fun hp => h (ifx_of_pfx_of_sfx hp hu)))

theorem allPasses_id {t : List Char}
    (h1 : ¬ "<span class=\"latex-inline\">".data <:+: t)
    (h2 : ¬ "<span class=\"latex-display\">".data <:+: t)
    (h3 : ¬ "<span class=\"latex-eq-aligned\">".data <:+: t)
    (h4 : ¬ "<span class=\"latex-impl-aligned\">".data <:+: t)
    (h5 : ¬ "<span class=\"latex-replaceable\">".data <:+: t) :
    literalPass (implAlignedPass (eqAlignedPass (displayPass (inlinePass t))))
      = t := by
  have e1 : inlinePass t = t := by
    unfold inlinePass
    refine spanPass_id ?_
    rw [show "<span class=\"".data ++ "latex-inline".data ++ "\">".data
        = "<span class=\"latex-inline\">".data from by decide]
    exact h1
  have e2 : displayPass t = t := by
    unfold displayPass
    refine spanPass_id ?_
    rw [show "<span class=\"".data ++ "latex-display".data ++ "\">".data
        = "<span class=\"latex-display\">".data from by decide]
    exact h2
  have e3 : eqAlignedPass t = t := by
    unfold eqAlignedPass
    refine spanPass_id ?_
    rw [show "<span class=\"".data ++ "latex-eq-aligned".data ++ "\">".data
        = "<span class=\"latex-eq-aligned\">".data from by decide]
    exact h3
  have e4 : implAlignedPass t = t := by
    unfold implAlignedPass
    refine spanPass_id ?_
    rw [show "<span class=\"".data ++ "latex-impl-aligned".data ++ "\">".data
        = "<span class=\"latex-impl-aligned\">".data from by decide]
    exact h4
  rw [e1, e2, e3, e4, literalPass_id h5]

theorem processContent_inject {s : List Char}
    (h1 : ¬ "<span class=\"latex-inline\">".data <:+: s)
    (h2 : ¬ "<span class=\"latex-display\">".data <:+: s)
    (h3 : ¬ "<span class=\"latex-eq-aligned\">".data <:+: s)
    (h4 : ¬ "<span class=\"latex-impl-aligned\">".data <:+: s)
    (h5 : ¬ "<span class=\"latex-replaceable\">".data <:+: s) :
    processContentL s = injectMathjax s := by
  have g1 := marker_not_in_inject h1 (by decide) (by decide) (by decide)
  have g2 := marker_not_in_inject h2 (by decide) (by decide) (by decide)
  have g3 := marker_not_in_inject h3 (by decide) (by decide) (by decide)
  have g4 := marker_not_in_inject h4 (by decide) (by decide) (by decide)
  have g5 := marker_not_in_inject h5 (by decide) (by decide) (by decide)
  unfold processContentL
  exact allPasses_id g1 g2 g3 g4 g5

/-! ## Claim theorems -/
theorem head_cond_of {P : List Char} {c0 : Char} (h : P.head? = some c0)
    (hws : isWs c0 = false) : ∀ c, P.head? = some c → isWs c = false := by
  intro c hc
  rw [h] at hc
  injection hc with h1
  rw [← h1]
  exact hws

theorem last_cond_of {P : List Char} {c0 : Char} (h : P.getLast? = some c0)
    (hws : isWs c0 = false) : ∀ c, P.getLast? = some c → isWs c = false := by
  intro c hc
  rw [h] at hc
  injection hc with h1
  rw [← h1]
  exact hws

/-- C1: On a fragment `(A)/(B)` whose operands are non-empty, do not start
with a space, avoid the table's trigger characters and do not contain the
ellipsis token, the Symbol Table rewrites the whole fragment into
`\cfrac{A}{B}` with the operands verbatim, the fraction entry firing
before the generic parenthesis entries. -/
theorem c1_fraction_rewrite {A B : List Char}
    (hA : OperandOk A) (hB : OperandOk B) :
    convertFragmentL (fracIn A B) = cfracRepl A B :=
  fracIn_conversion hA hB

theorem c1_fraction_rewrite_witness :
    convertFragmentL (fracIn "x".data "y+1".data)
      = cfracRepl "x".data "y+1".data :=
  c1_fraction_rewrite ⟨by decide, by decide, by decide, by decide⟩
    ⟨by decide, by decide, by decide, by decide⟩

theorem c1_brace_counterexample :
    convertFragment "(\x7b)/(x)" = "\\cfrac\x7b\\left \x7b\x7d\x7bx\x7d" ∧
      convertFragment "(\x7b)/(x)" ≠ "\\cfrac\x7b\x7b\x7d\x7bx\x7d" :=
  ⟨by decide, by decide⟩

/-- C2: The radical entry of the Symbol Table is dead code: on
`&radic;(x)` the parenthesis entries, which run earlier, consume the
parentheses, so the radical pattern never matches and no `\sqrt` appears
in the output. -/
theorem c2_radic_dead :
    convertFragment "&radic;(x)" = "&radic;\\left (x\\right )" ∧
      ¬ "\\sqrt".data <:+: (convertFragment "&radic;(x)").data :=
  ⟨by decide, by decide⟩

/-- C4: The Greek entity block maps entities one-to-one (no two patterns
and no two replacement commands coincide), the block's result does not
depend on the order of its entries, and on texts built from neutral
characters and whole Greek entities the Symbol Table is idempotent. -/
theorem c4_greek_idempotence :
    ((greekRules.map Prod.fst).Nodup ∧ (greekRules.map Prod.snd).Nodup) ∧
    (∀ gp : List (List Char × List Char), gp.Perm greekRules →
      ∀ s : List Char, applyLits gp s = applyLits greekRules s) ∧
    ∀ toks : List Tok, (∀ t ∈ toks, TokOk t) →
      convertFragmentL (convertFragmentL (flattenIn toks))
        = convertFragmentL (flattenIn toks) := by
  refine ⟨⟨by decide, by decide⟩, fun gp hp s => applyLits_perm hp s, ?_⟩
  intro toks h
  rw [convertFragmentL_flatten h, convertFragmentL_flatten_fixed h]

theorem c4_greek_idempotence_witness :
    applyLits greekRules.reverse "&alpha;x".data
        = applyLits greekRules "&alpha;x".data ∧
    convertFragmentL (convertFragmentL
        (flattenIn [Tok.ent ⟨0, by decide⟩, Tok.chr 'x']))
      = convertFragmentL (flattenIn [Tok.ent ⟨0, by decide⟩, Tok.chr 'x']) :=
  ⟨c4_greek_idempotence.2.1 greekRules.reverse (List.reverse_perm _) _,
   c4_greek_idempotence.2.2 _ (by
    intro t ht
    rcases List.mem_cons.mp ht with h | h
    · rw [h]; exact trivial
    · rcases List.mem_cons.mp h with h | h
      · rw [h]; exact ⟨by decide, by decide⟩
      · simp at h)⟩

theorem c4_idempotence_counterexample :
    convertFragment (convertFragment "(") ≠ convertFragment "(" := by decide

/-- C8: `<sub>X</sub>` with neutral inner text becomes exactly `_{X}`, and
the four script-tag entries are context-free token substitutions: the
mismatched `</sub>X<sub>` likewise becomes `}X_{`, propagating the
mismatch. -/
theorem c8_subscript_tokens {X : List Char} (hX : SubOk X) :
    convertFragmentL ("<sub>".data ++ (X ++ "</sub>".data))
        = "_\x7b".data ++ (X ++ "\x7d".data) ∧
    convertFragmentL ("</sub>".data ++ (X ++ "<sub>".data))
        = "\x7d".data ++ (X ++ "_\x7b".data) :=
  ⟨subConvert hX, subMismatch hX⟩

theorem c8_subscript_tokens_witness :
    convertFragmentL ("<sub>".data ++ ("i+1".data ++ "</sub>".data))
        = "_\x7b".data ++ ("i+1".data ++ "\x7d".data) ∧
    convertFragmentL ("</sub>".data ++ ("i+1".data ++ "<sub>".data))
        = "\x7d".data ++ ("i+1".data ++ "_\x7b".data) :=
  c8_subscript_tokens ⟨by decide, by decide⟩

/-- C5: A `latex-replaceable` span followed by a `<!-- LATEX: {@literal
payload} -->` comment is replaced by the payload verbatim: the span's
inner content is discarded and the Symbol Table never runs on the
payload. -/
theorem c5_literal_replacement {I P : List Char}
    (hI : '<' ∉ I) (hP : PayloadOk P) :
    literalPass ("<span class=\"latex-replaceable\">".data
      ++ (I ++ ("</span><!-- LATEX:".data
        ++ (" \x7b@literal ".data ++ (P ++ "\x7d -->".data))))) = P :=
  literalPass_single hI (literalBody_wrapped hP)

theorem c5_literal_replacement_witness :
    literalPass ("<span class=\"latex-replaceable\">".data
      ++ ("IGNORED".data ++ ("</span><!-- LATEX:".data
        ++ (" \x7b@literal ".data ++ ("x^2 + y^2".data ++ "\x7d -->".data)))))
      = "x^2 + y^2".data :=
  c5_literal_replacement (by decide)
    ⟨by decide, head_cond_of rfl (by decide), last_cond_of rfl (by decide),
      by decide, by decide⟩

/-- C10: When the directive comment lacks the `{@literal` wrapper but the
written payload ends in a closing brace, the optional closing-brace group
of the pattern consumes that brace, so the emitted replacement is the
written payload with its final closing brace removed. -/
theorem c10_brace_stripping {I Q : List Char}
    (hI : '<' ∉ I) (hQ : PayloadOk Q)
    (hnw : ¬ "\x7b@literal".data <+: Q ++ "\x7d -->".data) :
    literalPass ("<span class=\"latex-replaceable\">".data
      ++ (I ++ ("</span><!-- LATEX:".data
        ++ (' ' :: (Q ++ "\x7d -->".data))))) = Q :=
  literalPass_single hI (literalBody_bare hQ hnw)

theorem c10_brace_stripping_witness :
    literalPass ("<span class=\"latex-replaceable\">".data
      ++ ("IGNORED".data ++ ("</span><!-- LATEX:".data
        ++ (' ' :: ("\x7bx".data ++ "\x7d -->".data))))) = "\x7bx".data :=
  c10_brace_stripping (by decide)
    ⟨by decide, head_cond_of rfl (by decide), last_cond_of rfl (by decide),
      by decide, by decide⟩
    (by decide)

/-- C6: Header injection: whenever a head-element opening tag matches
anywhere in the document (case-insensitively), the leftmost match is
found and exactly one script reference is inserted directly after that
tag, the rest of the document unchanged; without a match the document is
returned unchanged. -/
theorem c6_head_injection :
    (∀ s : List Char, ∀ k n : Nat, headMatchLen (s.drop k) = some n →
      ∃ pre post, findHeadEnd s = some (pre, post) ∧ s = pre ++ post ∧
        injectMathjax s = pre ++ (("\n    ".data ++ mathjaxScript) ++ post)) ∧
    ∀ s : List Char, findHeadEnd s = none → injectMathjax s = s := by
  constructor
  · intro s k n h
    obtain ⟨pr, hpr⟩ := findHeadEnd_exists h
    obtain ⟨pre, post⟩ := pr
    exact ⟨pre, post, hpr, findHeadEnd_append hpr, injectMathjax_some hpr⟩
  · intro s h
    exact injectMathjax_none h

theorem c6_head_injection_witness :
    (∃ pre post, findHeadEnd "<HEAD>x".data = some (pre, post) ∧
      "<HEAD>x".data = pre ++ post ∧
      injectMathjax "<HEAD>x".data
        = pre ++ (("\n    ".data ++ mathjaxScript) ++ post)) ∧
    injectMathjax "nobody".data = "nobody".data :=
  ⟨c6_head_injection.1 "<HEAD>x".data 0 6 (by decide),
   c6_head_injection.2 "nobody".data (by decide)⟩

/-- C7: On a document containing none of the five region markers, the
whole pipeline reduces to header injection alone: every region pass and
the literal pass return their input unchanged. -/
theorem c7_region_passes_id {s : List Char}
    (h1 : ¬ "<span class=\"latex-inline\">".data <:+: s)
    (h2 : ¬ "<span class=\"latex-display\">".data <:+: s)
    (h3 : ¬ "<span class=\"latex-eq-aligned\">".data <:+: s)
    (h4 : ¬ "<span class=\"latex-impl-aligned\">".data <:+: s)
    (h5 : ¬ "<span class=\"latex-replaceable\">".data <:+: s) :
    processContentL s = injectMathjax s :=
  processContent_inject h1 h2 h3 h4 h5

theorem c7_region_passes_id_witness :
    processContentL "<head>(x)</head>".data
      = injectMathjax "<head>(x)</head>".data :=
  c7_region_passes_id (by decide) (by decide) (by decide) (by decide)
    (by decide)

/-- C3: The per-file pipeline is not idempotent: on a document with a head
tag and no markers, every further run inserts one more script reference
directly after the head tag, so running the pipeline twice yields two
script lines where one run yields one. -/
theorem c3_double_injection {v : List Char} (hv : '<' ∉ v) :
    processContentL (processContentL ("<head>".data ++ v))
      = "<head>".data ++ (("\n    ".data ++ mathjaxScript)
          ++ (("\n    ".data ++ mathjaxScript) ++ v)) ∧
    processContentL ("<head>".data ++ v)
      = "<head>".data ++ (("\n    ".data ++ mathjaxScript) ++ v) := by
  have h1 := marker_not_in_headdoc (m := "<span class=\"latex-inline\">".data)
    hv (by decide) (by decide) (by decide)
  have h2 := marker_not_in_headdoc (m := "<span class=\"latex-display\">".data)
    hv (by decide) (by decide) (by decide)
  have h3 := marker_not_in_headdoc
    (m := "<span class=\"latex-eq-aligned\">".data)
    hv (by decide) (by decide) (by decide)
  have h4 := marker_not_in_headdoc
    (m := "<span class=\"latex-impl-aligned\">".data)
    hv (by decide) (by decide) (by decide)
  have h5 := marker_not_in_headdoc
    (m := "<span class=\"latex-replaceable\">".data)
    hv (by decide) (by decide) (by decide)
  have hrun1 : processContentL ("<head>".data ++ v)
      = injectMathjax ("<head>".data ++ v) :=
    processContent_inject h1 h2 h3 h4 h5
  have hinj1 : injectMathjax ("<head>".data ++ v)
      = "<head>".data ++ (("\n    ".data ++ mathjaxScript) ++ v) :=
    injectMathjax_some (findHeadEnd_head v)
  have hsingle := hrun1.trans hinj1
  have g1 := marker_not_in_inject h1 (by decide) (by decide) (by decide)
  have g2 := marker_not_in_inject h2 (by decide) (by decide) (by decide)
  have g3 := marker_not_in_inject h3 (by decide) (by decide) (by decide)
  have g4 := marker_not_in_inject h4 (by decide) (by decide) (by decide)
  have g5 := marker_not_in_inject h5 (by decide) (by decide) (by decide)
  have hrun2 : processContentL (injectMathjax ("<head>".data ++ v))
      = injectMathjax (injectMathjax ("<head>".data ++ v)) :=
    processContent_inject g1 g2 g3 g4 g5
  have hinj2 : injectMathjax
      ("<head>".data ++ (("\n    ".data ++ mathjaxScript) ++ v))
      = "<head>".data ++ (("\n    ".data ++ mathjaxScript)
          ++ (("\n    ".data ++ mathjaxScript) ++ v)) :=
    injectMathjax_some (findHeadEnd_head _)
  refine ⟨?_, hsingle⟩
  rw [hsingle, ← hinj1, hrun2, hinj1, hinj2]

theorem c3_double_injection_witness :
    processContentL (processContentL ("<head>".data ++ "x".data))
      = "<head>".data ++ (("\n    ".data ++ mathjaxScript)
          ++ (("\n    ".data ++ mathjaxScript) ++ "x".data)) ∧
    processContentL ("<head>".data ++ "x".data)
      = "<head>".data ++ (("\n    ".data ++ mathjaxScript) ++ "x".data) :=
  c3_double_injection (by decide)

theorem c3_pipeline_counterexample :
    processContentL (processContentL "<head>".data)
      ≠ processContentL "<head>".data := by decide

/-- C9: A `latex-eq-aligned` region of two newline-separated lines, each
with exactly one `=` and otherwise neutral text, becomes a display-math
`align*` block of two rows separated by a row break, each row's `=`
replaced by the alignment-marked `&=`. -/
theorem c9_eq_aligned {a1 b1 a2 b2 : List Char} (h : AlignedOk a1 b1 a2 b2) :
    eqAlignedPass ("<span class=\"latex-eq-aligned\">".data ++
      (((a1 ++ '=' :: b1) ++ '\n' :: (a2 ++ '=' :: b2)) ++ "</span>".data)) =
    "\\[ \\begin\x7balign*\x7d ".data ++
      ((a1 ++ '&' :: '=' :: b1) ++ (" \\\\ \n".data ++ (a2 ++ '&' :: '=' :: b2)))
      ++ " \\end\x7balign*\x7d \\]".data :=
  eqAligned_eval h

theorem c9_eq_aligned_witness :
    eqAlignedPass ("<span class=\"latex-eq-aligned\">".data ++
      ((("x".data ++ '=' :: "y".data)
          ++ '\n' :: ("u".data ++ '=' :: "v".data)) ++ "</span>".data)) =
    "\\[ \\begin\x7balign*\x7d ".data ++
      (("x".data ++ '&' :: '=' :: "y".data)
        ++ (" \\\\ \n".data ++ ("u".data ++ '&' :: '=' :: "v".data)))
      ++ " \\end\x7balign*\x7d \\]".data :=
  c9_eq_aligned ⟨by decide, by decide, by decide, by decide, by decide,
    head_cond_of rfl (by decide), by decide, last_cond_of rfl (by decide)⟩

end ConvertLatex
